import Mathlib

set_option maxHeartbeats 1000000

/-! Shallow embedding of the adaptive text-layout engine in
scripts/gen_png_frames.py (tokenizer, line wrapper, auto-fit sizer, layout
placer) and of the chunking logic in scripts/tts_openai.py.

Python strings are modelled as lists of codepoints (`Str`).  The Pillow
width oracle (`draw.textbbox`) is modelled as an abstract function
`Str → Nat` (one per loaded font, i.e. per size), and font metrics
(`font.getmetrics`) as abstract functions of the size.  All pixel
quantities are `Int`; Python floor division `//` is `Int.fdiv`. -/

abbrev Str := List Char

/-- Python's Unicode whitespace set: the characters stripped by `str.strip`
and matched by the regex class `\s` on `str` patterns. -/
def pyIsSpace (c : Char) : Bool :=
  decide (c.toNat = 0x20 ∨ c.toNat = 0x9 ∨ c.toNat = 0xa ∨ c.toNat = 0xb ∨
    c.toNat = 0xc ∨ c.toNat = 0xd ∨ (0x1c ≤ c.toNat ∧ c.toNat ≤ 0x1f) ∨
    c.toNat = 0x85 ∨ c.toNat = 0xa0 ∨ c.toNat = 0x1680 ∨
    (0x2000 ≤ c.toNat ∧ c.toNat ≤ 0x200a) ∨ c.toNat = 0x2028 ∨
    c.toNat = 0x2029 ∨ c.toNat = 0x202f ∨ c.toNat = 0x205f ∨ c.toNat = 0x3000)

/-- Python `str.lstrip()`. -/
def pyLstrip (l : Str) : Str := l.dropWhile pyIsSpace

/-- Python `str.rstrip()`. -/
def pyRstrip (l : Str) : Str := (l.reverse.dropWhile pyIsSpace).reverse

/-- Python `str.strip()`. -/
def pyStrip (l : Str) : Str := pyLstrip (pyRstrip l)

/-- The `text_w` helper inside `wrap_tokens_to_width`: empty text measures
0, otherwise the width oracle is consulted. -/
def textW (w : Str → Nat) (t : Str) : Nat := if t = [] then 0 else w t

/-- One step of the character-level hard-break loop of
`wrap_tokens_to_width` (the `for ch in tok` loop): the state is the pair
(emitted lines, sub-buffer `buf`). -/
def hardBreakStep (w : Str → Nat) (maxW : Int) (st : List Str × Str) (ch : Char) :
    List Str × Str :=
  let c2 := st.2 ++ [ch]
  if (textW w c2 : Int) ≤ maxW then (st.1, c2)
  else ((if st.2 ≠ [] then st.1 ++ [st.2] else st.1), [ch])

/-- One iteration of the token loop of `wrap_tokens_to_width`: the state is
the pair (emitted lines, current line buffer `cur`).  A `"\n"` token
flushes the buffer only when it has non-whitespace content and always
resets it; otherwise the candidate `cur + tok` is committed when it fits,
and on overflow the buffer is flushed (when it has content), a bare space
is dropped, an oversized token is hard-broken character by character, and
any other token starts the new line. -/
def wrapStep (w : Str → Nat) (maxW : Int) (st : List Str × Str) (tok : Str) :
    List Str × Str :=
  if tok = ['\n'] then
    ((if pyStrip st.2 ≠ [] then st.1 ++ [pyRstrip st.2] else st.1), [])
  else
    let cand := if st.2 ≠ [] then st.2 ++ tok else tok
    if (textW w cand : Int) ≤ maxW then (st.1, cand)
    else
      let st1 := if pyStrip st.2 ≠ [] then (st.1 ++ [pyRstrip st.2], ([] : Str)) else st
      if tok = [' '] then st1
      else if maxW < (textW w tok : Int) then tok.foldl (hardBreakStep w maxW) (st1.1, [])
      else (st1.1, tok)

/-- `wrap_tokens_to_width(draw, tokens, font, max_width)`: fold the token
loop, flush the final buffer when it has content, and drop
whitespace-only lines. -/
def wrap_tokens_to_width (w : Str → Nat) (tokens : List Str) (maxW : Int) : List Str :=
  let st := tokens.foldl (wrapStep w maxW) ([], [])
  let ls := if pyStrip st.2 ≠ [] then st.1 ++ [pyRstrip st.2] else st.1
  ls.filter fun l => decide (pyStrip l ≠ [])

/-- The three character classes of the run regex
`[一-鿿]+|[A-Za-z0-9]+|[^\sA-Za-z0-9一-鿿]+`. -/
inductive CClass
  | cjk
  | alnum
  | other
deriving DecidableEq

/-- Classify a codepoint for the run regex of `tokenize_mixed_text`:
CJK block, ASCII alphanumeric, whitespace (matched by no class, hence
skipped by `findall`), or "other". -/
def classifyChar (c : Char) : Option CClass :=
  if 0x4e00 ≤ c.toNat ∧ c.toNat ≤ 0x9fff then some CClass.cjk
  else if (0x41 ≤ c.toNat ∧ c.toNat ≤ 0x5a) ∨ (0x61 ≤ c.toNat ∧ c.toNat ≤ 0x7a) ∨
      (0x30 ≤ c.toNat ∧ c.toNat ≤ 0x39) then some CClass.alnum
  else if pyIsSpace c then none
  else some CClass.other

/-- Dropping a prefix by a predicate never lengthens a list. -/
theorem length_dropWhile_le (p : α → Bool) (l : List α) :
    (l.dropWhile p).length ≤ l.length := by
  induction l with
  | nil => simp
  | cons a l ih =>
    rw [List.dropWhile_cons]
    split
    · exact Nat.le_succ_of_le ih
    · exact Nat.le_refl _

/-- Scanner for `re.findall` of the run regex: the state carries the
class and the (reversed) codepoints of the run currently being read; a
codepoint of the same class extends the run, a different class or the end
closes it, and an unclassified (whitespace) codepoint closes it and is
itself skipped. -/
def runsAux : Option (CClass × Str) → Str → List Str
  | none, [] => []
  | some (_, r), [] => [r.reverse]
  | none, c :: rest =>
    match classifyChar c with
    | none => runsAux none rest
    | some k => runsAux (some (k, [c])) rest
  | some (k', r), c :: rest =>
    match classifyChar c with
    | none => r.reverse :: runsAux none rest
    | some k =>
      if k = k' then runsAux (some (k', c :: r)) rest
      else r.reverse :: runsAux (some (k, [c])) rest

/-- `re.findall` of the run regex on a word: maximal runs of a single
class, with unclassified (whitespace) codepoints skipped. -/
def runsOf (s : Str) : List Str := runsAux none s

/-- The single pass `s.replace("\r\n", "\n")` composed with
`s.replace("\r", "\n")` collapses each `"\r\n"` pair and each lone `"\r"`
to `"\n"`; this function is that combined left-to-right pass. -/
def replaceCRLF : Str → Str
  | '\r' :: '\n' :: rest => '\n' :: replaceCRLF rest
  | c :: rest => c :: replaceCRLF rest
  | [] => []

/-- Line-ending normalization at the top of `tokenize_mixed_text`. -/
def normalizeNewlines (s : Str) : Str :=
  (replaceCRLF s).map fun c => if c = '\r' then '\n' else c

/-- Python `str.split(sep)` for a single-character separator. -/
def splitChar (sep : Char) : Str → List Str
  | [] => [[]]
  | c :: rest =>
    if c = sep then [] :: splitChar sep rest
    else
      match splitChar sep rest with
      | [] => [[c]]
      | h :: t => (c :: h) :: t

/-- The word loop of `tokenize_mixed_text` for one paragraph: each word is
replaced by its regex runs, and a single `" "` token is inserted after
every word except the last. -/
def paraTokensAux : List Str → List Str
  | [] => []
  | [wd] => runsOf wd
  | wd :: rest => runsOf wd ++ [' '] :: paraTokensAux rest

/-- The tokens one paragraph contributes in `tokenize_mixed_text`: a lone
`"\n"` for an empty paragraph, otherwise the word/space tokens followed
by `"\n"`. -/
def paraBlock (para : Str) : List Str :=
  if para = [] then [(['\n'] : Str)]
  else paraTokensAux (splitChar ' ' para) ++ [['\n']]

/-- `tokenize_mixed_text(s)`: normalize line endings, split into
paragraphs on `"\n"`, emit each paragraph's block, then pop the trailing
`"\n"`. -/
def tokenize_mixed_text (s : Str) : List Str :=
  (((splitChar '\n' (normalizeNewlines s)).map paraBlock).flatten).dropLast

/-- Candidate sizes `range(start, stop, -2)` of the auto-fit loop. -/
def pyRange2Down (start stop : Int) : List Int :=
  (List.range ((start - stop + 1).toNat / 2)).map fun i => start - 2 * Int.ofNat i

/-- `line_h = ascent + descent + line_spacing` at a given size. -/
def lineHeight (asc desc : Int → Nat) (spacing : Int) (s : Int) : Int :=
  (asc s : Int) + (desc s : Int) + spacing

/-- The height-budget test `total_h <= box_h` of `fit_text_in_box` at one
candidate size. -/
abbrev heightFits (W : Int → Str → Nat) (asc desc : Int → Nat) (spacing : Int)
    (tokens : List Str) (bw bh : Int) (s : Int) : Prop :=
  ((wrap_tokens_to_width (W s) tokens bw).length : Int) * lineHeight asc desc spacing s ≤ bh

/-- The descending size loop of `fit_text_in_box`: returns the first
candidate size whose wrapped output fits the height budget, with those
lines, or `none` when no candidate fits. -/
def fitLoop (W : Int → Str → Nat) (asc desc : Int → Nat) (spacing : Int)
    (tokens : List Str) (bw bh : Int) : List Int → Option (Int × List Str)
  | [] => none
  | s :: rest =>
    let lines := wrap_tokens_to_width (W s) tokens bw
    if (lines.length : Int) * lineHeight asc desc spacing s ≤ bh then some (s, lines)
    else fitLoop W asc desc spacing tokens bw bh rest

/-- The ellipsis character appended during truncation. -/
def ell : Str := ['…']

/-- The ellipsis-trimming `while True` loop of `fit_text_in_box`, on the
reversed line so that stripping the final character is structural:
repeatedly drop the head until the reversal plus `"…"` measures within
the box width or the text is empty. -/
def trimEllipsisRev (w : Str → Nat) (bw : Int) : Str → Str
  | [] => []
  | c :: r =>
    if (w ((c :: r).reverse ++ ell) : Int) ≤ bw then c :: r
    else trimEllipsisRev w bw r

/-- The ellipsis-trimming `while True` loop of `fit_text_in_box`:
repeatedly strip the final character of `last` until `last + "…"`
measures within the box width or `last` is empty. -/
def trimEllipsis (w : Str → Nat) (bw : Int) (last : Str) : Str :=
  (trimEllipsisRev w bw last.reverse).reverse

/-- Result of `fit_text_in_box`: the chosen size, the final lines, and
whether the fallback path removed lines (the local `truncated` flag in the
source; the success path of the loop corresponds to `truncated = false`). -/
structure FitResult where
  chosenSize : Int
  lines : List Str
  truncated : Bool
deriving DecidableEq

/-- `fit_text_in_box`: tokenize once, run the descending size loop, and on
failure fall back to `min_size` with `max_lines = max(1, box_h // line_h)`
truncation and ellipsis trimming of the last kept line. -/
def fit_text_in_box (W : Int → Str → Nat) (asc desc : Int → Nat) (text : Str)
    (bw bh : Int) (startSize minSize spacing : Int) : FitResult :=
  let tokens := tokenize_mixed_text text
  match fitLoop W asc desc spacing tokens bw bh (pyRange2Down startSize (minSize - 1)) with
  | some (s, lines) => ⟨s, lines, false⟩
  | none =>
    let lines := wrap_tokens_to_width (W minSize) tokens bw
    let lh := lineHeight asc desc spacing minSize
    let maxLines : Int := max 1 (Int.fdiv bh lh)
    let kept := lines.take maxLines.toNat
    if maxLines < (lines.length : Int) then
      match kept.getLast? with
      | none => ⟨minSize, kept, true⟩
      | some last =>
        let t := trimEllipsis (W minSize) bw last
        ⟨minSize, kept.dropLast ++ [if t ≠ [] then t ++ ell else ell], true⟩
    else ⟨minSize, kept, false⟩

/-- The per-line loop of `draw_lines`: skip whitespace-only lines without
advancing, clamp `yy` to the box top, stop as soon as a line would
overflow the bottom, compute `xx` from the alignment, and emit
`(line, xx, yy)` advancing by `line_h`. -/
def drawLoop (w : Str → Nat) (x y bw bh lineH : Int) (align : String) :
    List Str → Int → List (Str × Int × Int)
  | [], _ => []
  | line :: rest, yy =>
    if pyStrip line = [] then drawLoop w x y bw bh lineH align rest yy
    else
      let yy1 := if yy < y then y else yy
      if y + bh < yy1 + lineH then []
      else
        let tw : Int := (w line : Int)
        let xx := if align = "right" then max x (x + bw - tw)
          else if align = "center" then x + max 0 (Int.fdiv (bw - tw) 2)
          else x
        (line, xx, yy1) :: drawLoop w x y bw bh lineH align rest (yy1 + lineH)

/-- `draw_lines(img, box, lines, font, fill, align, line_spacing)` reduced
to its geometry: the vertical start is centered exactly when there is at
least one line, the total text height is below the box height and a
single line height fits; otherwise it is the box top. -/
def draw_lines (w : Str → Nat) (x y bw bh : Int) (lines : List Str)
    (ascent descent : Nat) (align : String) (spacing : Int) : List (Str × Int × Int) :=
  let lineH : Int := (ascent : Int) + (descent : Int) + spacing
  let totalH : Int := (lines.length : Int) * lineH
  let y0 := if 0 < lines.length ∧ totalH < bh ∧ lineH ≤ bh then
    y + Int.fdiv (bh - totalH) 2 else y
  drawLoop w x y bw bh lineH align lines y0

/-- OpenAI TTS input cap (characters) per request, from tts_openai.py. -/
def MAX_CHARS : Nat := 4096

/-- `re.split(r"\n{2,}", text)`: split on maximal runs of two or more
newlines.  The accumulator holds the current segment reversed; the flag
is true while the tail of a delimiter newline run is being consumed. -/
def splitNNAux : Bool → Str → Str → List Str
  | _, acc, [] => [acc.reverse]
  | true, acc, '\n' :: rest => splitNNAux true acc rest
  | true, acc, c :: rest => splitNNAux false (c :: acc) rest
  | false, acc, '\n' :: '\n' :: rest => acc.reverse :: splitNNAux true [] rest
  | false, acc, c :: rest => splitNNAux false (c :: acc) rest

def splitNN (s : Str) : List Str := splitNNAux false [] s

/-- The sentence-ending codepoints of the regex `(?<=[。！？.!?])\s*`. -/
def isSentEnder (c : Char) : Bool :=
  decide (c.toNat = 0x3002 ∨ c.toNat = 0xff01 ∨ c.toNat = 0xff1f ∨
    c.toNat = 0x2e ∨ c.toNat = 0x21 ∨ c.toNat = 0x3f)

/-- Scanner state for the sentence splitter: at the start of the string
or of a fresh segment, after a given codepoint, or inside the whitespace
run that follows a sentence ender. -/
inductive SentMode
  | start
  | after (c : Char)
  | skipWs

/-- `re.split(r"(?<=[。！？.!?])\s*", part)`: after any sentence ender the
following whitespace run is consumed as a delimiter (a zero-width match
still splits, and the scanner then advances one codepoint).  `acc` is the
current segment reversed. -/
def sentSplitAux : SentMode → Str → Str → List Str
  | mode, acc, [] =>
    if (match mode with | SentMode.after pc => isSentEnder pc | _ => false) then
      [acc.reverse, []]
    else [acc.reverse]
  | SentMode.after pc, acc, c :: rest =>
    if isSentEnder pc then
      if pyIsSpace c then acc.reverse :: sentSplitAux SentMode.skipWs [] rest
      else acc.reverse :: sentSplitAux (SentMode.after c) [c] rest
    else sentSplitAux (SentMode.after c) (c :: acc) rest
  | SentMode.skipWs, acc, c :: rest =>
    if pyIsSpace c then sentSplitAux SentMode.skipWs acc rest
    else sentSplitAux (SentMode.after c) (c :: acc) rest
  | SentMode.start, acc, c :: rest => sentSplitAux (SentMode.after c) (c :: acc) rest

def sentSplit (s : Str) : List Str := sentSplitAux SentMode.start [] s

/-- Greedy chunking scanner: `acc` is the current chunk reversed and `k`
its remaining capacity; when the capacity is exhausted the chunk is
emitted and a fresh chunk of capacity `limit` is started. -/
def hardCutAux (limit : Nat) : Str → Nat → Str → List Str
  | acc, _, [] => if acc = [] then [] else [acc.reverse]
  | acc, 0, c :: rest => acc.reverse :: hardCutAux limit [c] (limit - 1) rest
  | acc, k + 1, c :: rest => hardCutAux limit (c :: acc) k rest

/-- The hard cut `for i in range(0, len(s), limit): s[i:i+limit]` of
`smart_split_text`; for `limit = 0` Python would raise on the zero range
step, here the result is empty. -/
def hardCut (limit : Nat) (s : Str) : List Str :=
  if limit = 0 then [] else hardCutAux limit [] limit s

/-- The inner sentence loop of `smart_split_text`: state is
(chunks, cur). Oversized sentences are hard-cut straight into chunks
(leaving `cur` pending), others are accumulated into `cur` with a single
space, flushing `cur` when it would overflow. -/
def processSentence (limit : Nat) (st : List Str × Str) (sen : Str) : List Str × Str :=
  let s := pyStrip sen
  if s = [] then st
  else if limit < s.length then (st.1 ++ hardCut limit s, st.2)
  else if st.2 = [] then (st.1, s)
  else if st.2.length + 1 + s.length ≤ limit then (st.1, st.2 ++ ' ' :: s)
  else (st.1 ++ [st.2], s)

/-- The paragraph loop of `smart_split_text`: oversized paragraphs are
sentence-split and processed by the inner loop, others are accumulated
into `cur` with `"\n\n"`, flushing `cur` when it would overflow. -/
def processPart (limit : Nat) (st : List Str × Str) (part0 : Str) : List Str × Str :=
  let part := pyStrip part0
  if part = [] then st
  else if limit < part.length then (sentSplit part).foldl (processSentence limit) st
  else if st.2 = [] then (st.1, part)
  else if st.2.length + 2 + part.length ≤ limit then (st.1, st.2 ++ '\n' :: '\n' :: part)
  else (st.1 ++ [st.2], part)

/-- `smart_split_text(text, limit)`. -/
def smart_split_text (text0 : Str) (limit : Nat) : List Str :=
  let text := pyStrip text0
  if text.length ≤ limit then [text]
  else
    let st := (splitNN text).foldl (processPart limit) ([], [])
    if st.2 ≠ [] then st.1 ++ [st.2] else st.1

/-- The texts `gen_one` submits as TTS requests: the whole text when
splitting is disabled or it fits the cap, otherwise the chunks of
`smart_split_text(text, MAX_CHARS)`. -/
def genOneRequests (text : Str) (allowSplitConcat : Bool) : List Str :=
  if allowSplitConcat = false ∨ text.length ≤ MAX_CHARS then [text]
  else smart_split_text text MAX_CHARS

/-! Auxiliary lemmas about the Python string primitives. -/

theorem dropWhile_cons_false (p : α → Bool) (a : α) (l : List α) (h : p a = false) :
    (a :: l).dropWhile p = a :: l := by
  rw [List.dropWhile_cons]; simp [h]

theorem dropWhile_idem (p : α → Bool) (l : List α) :
    (l.dropWhile p).dropWhile p = l.dropWhile p := by
  induction l with
  | nil => simp
  | cons a l ih =>
    rw [List.dropWhile_cons]
    split
    · exact ih
    · rw [dropWhile_cons_false _ _ _ (by simp_all)]

theorem dropWhile_eq_self_of_all (p : α → Bool) (l : List α)
    (h : ∀ c ∈ l, p c = false) : l.dropWhile p = l := by
  cases l with
  | nil => simp
  | cons a t => exact dropWhile_cons_false _ _ _ (h a (by simp))

theorem pyRstrip_eq_self (l : Str) (h : ∀ c ∈ l, pyIsSpace c = false) :
    pyRstrip l = l := by
  unfold pyRstrip
  rw [dropWhile_eq_self_of_all _ _ (fun c hc => h c (List.mem_reverse.mp hc))]
  exact List.reverse_reverse l

theorem pyRstrip_append_space (l : Str) : pyRstrip (l ++ [' ']) = pyRstrip l := by
  unfold pyRstrip
  have hsp : pyIsSpace ' ' = true := by decide
  rw [List.reverse_append]
  simp [List.dropWhile_cons, hsp]

theorem pyStrip_append_space (l : Str) : pyStrip (l ++ [' ']) = pyStrip l := by
  unfold pyStrip; rw [pyRstrip_append_space]

theorem pyRstrip_append_run (cur tok : Str) (ht : tok ≠ [])
    (h : ∀ c ∈ tok, pyIsSpace c = false) : pyRstrip (cur ++ tok) = cur ++ tok := by
  obtain ⟨c, rest, hr⟩ : ∃ c rest, tok.reverse = c :: rest := by
    cases hrev : tok.reverse with
    | nil => exact absurd (by simpa using congrArg List.reverse hrev) ht
    | cons c rest => exact ⟨c, rest, rfl⟩
  have hc : pyIsSpace c = false := h c (List.mem_reverse.mp (hr ▸ List.mem_cons_self c rest))
  have hrv : (cur ++ tok).reverse = c :: (rest ++ cur.reverse) := by
    rw [List.reverse_append, hr, List.cons_append]
  unfold pyRstrip
  rw [hrv, dropWhile_cons_false _ _ _ hc, ← hrv, List.reverse_reverse]

theorem exists_rstrip_decomp (l : Str) :
    ∃ sfx, l = pyRstrip l ++ sfx ∧ ∀ c ∈ sfx, pyIsSpace c = true := by
  refine ⟨(l.reverse.takeWhile pyIsSpace).reverse, ?_, ?_⟩
  · conv_lhs => rw [← List.reverse_reverse l,
      ← List.takeWhile_append_dropWhile (p := pyIsSpace) (l := l.reverse)]
    rw [List.reverse_append]
    rfl
  · intro c hc
    exact List.mem_takeWhile_imp (List.mem_reverse.mp hc)

theorem pyStrip_eq_nil_iff (l : Str) :
    pyStrip l = [] ↔ ∀ c ∈ l, pyIsSpace c = true := by
  unfold pyStrip pyLstrip
  rw [List.dropWhile_eq_nil_iff]
  constructor
  · intro h c hc
    obtain ⟨sfx, hdec, hsfx⟩ := exists_rstrip_decomp l
    rw [hdec] at hc
    rcases List.mem_append.mp hc with h1 | h2
    · exact h c h1
    · exact hsfx c h2
  · intro h c hc
    obtain ⟨sfx, hdec, _⟩ := exists_rstrip_decomp l
    exact h c (by rw [hdec]; exact List.mem_append.mpr (Or.inl hc))

theorem pyStrip_ne_nil_iff (l : Str) :
    pyStrip l ≠ [] ↔ ∃ c ∈ l, pyIsSpace c = false := by
  rw [Ne, pyStrip_eq_nil_iff]
  push_neg
  simp [Bool.not_eq_true]

theorem pyRstrip_idem (l : Str) : pyRstrip (pyRstrip l) = pyRstrip l := by
  unfold pyRstrip
  rw [List.reverse_reverse, dropWhile_idem]

theorem pyStrip_pyRstrip (l : Str) : pyStrip (pyRstrip l) = pyStrip l := by
  unfold pyStrip pyLstrip
  rw [pyRstrip_idem]

theorem mem_pyRstrip (l : Str) (c : Char) (h : c ∈ pyRstrip l) : c ∈ l := by
  obtain ⟨sfx, hdec, _⟩ := exists_rstrip_decomp l
  rw [hdec]
  exact List.mem_append.mpr (Or.inl h)

theorem foldl_pres {α β : Type} (f : β → α → β) (P : β → Prop)
    (hf : ∀ b a, P b → P (f b a)) : ∀ (l : List α) (b : β), P b → P (l.foldl f b) := by
  intro l
  induction l with
  | nil => intro b hb; simpa using hb
  | cons a t ih => intro b hb; exact ih _ (hf _ _ hb)

/-! Chunk-size bound for `smart_split_text` (claim C10). -/

theorem hardCutAux_le (limit : Nat) :
    ∀ (s acc : Str) (k : Nat), 1 ≤ limit → acc.length + k ≤ limit →
      ∀ x ∈ hardCutAux limit acc k s, x.length ≤ limit := by
  intro s
  induction s with
  | nil =>
    intro acc k h1 h2 x hx
    simp only [hardCutAux] at hx
    split at hx
    · simp at hx
    · simp only [List.mem_singleton] at hx
      subst hx
      simp only [List.length_reverse]
      omega
  | cons c rest ih =>
    intro acc k h1 h2 x hx
    cases k with
    | zero =>
      simp only [hardCutAux] at hx
      rcases List.mem_cons.mp hx with hx | hx
      · subst hx
        simp only [List.length_reverse]
        omega
      · exact ih [c] (limit - 1) h1 (by simp; omega) x hx
    | succ k =>
      simp only [hardCutAux] at hx
      exact ih (c :: acc) k h1 (by simp at h2 ⊢; omega) x hx

theorem hardCut_le (limit : Nat) (s : Str) : ∀ c ∈ hardCut limit s, c.length ≤ limit := by
  unfold hardCut
  split_ifs with h
  · simp
  · exact hardCutAux_le limit s [] limit (by omega) (by simp)

/-- Invariant of the `smart_split_text` accumulation: every emitted chunk
and the pending buffer are within the limit. -/
abbrev ChunksOK (limit : Nat) (st : List Str × Str) : Prop :=
  (∀ c ∈ st.1, c.length ≤ limit) ∧ st.2.length ≤ limit

theorem processSentence_inv (limit : Nat) (st : List Str × Str) (sen : Str)
    (h : ChunksOK limit st) : ChunksOK limit (processSentence limit st sen) := by
  obtain ⟨h1, h2⟩ := h
  simp only [processSentence, ChunksOK]
  split_ifs with e1 e2 e3 e4 <;> (try dsimp only)
  · exact ⟨h1, h2⟩
  · refine ⟨?_, h2⟩
    intro c hc
    rcases List.mem_append.mp hc with hc | hc
    · exact h1 c hc
    · exact hardCut_le _ _ c hc
  · exact ⟨h1, by omega⟩
  · refine ⟨h1, ?_⟩
    simp only [List.length_append, List.length_cons] at *
    omega
  · refine ⟨?_, by omega⟩
    intro c hc
    rcases List.mem_append.mp hc with hc | hc
    · exact h1 c hc
    · simp only [List.mem_singleton] at hc; subst hc; exact h2

theorem processPart_inv (limit : Nat) (st : List Str × Str) (part0 : Str)
    (h : ChunksOK limit st) : ChunksOK limit (processPart limit st part0) := by
  obtain ⟨h1, h2⟩ := h
  simp only [processPart, ChunksOK]
  split_ifs with e1 e2 e3 e4 <;> (try dsimp only)
  · exact ⟨h1, h2⟩
  · exact foldl_pres _ _ (fun b a hb => processSentence_inv limit b a hb) _ _ ⟨h1, h2⟩
  · exact ⟨h1, by omega⟩
  · refine ⟨h1, ?_⟩
    simp only [List.length_append, List.length_cons] at *
    omega
  · refine ⟨?_, by omega⟩
    intro c hc
    rcases List.mem_append.mp hc with hc | hc
    · exact h1 c hc
    · simp only [List.mem_singleton] at hc; subst hc; exact h2

theorem smart_split_all_le (text0 : Str) (limit : Nat) :
    ∀ chunk ∈ smart_split_text text0 limit, chunk.length ≤ limit := by
  have hinv : ChunksOK limit ((splitNN (pyStrip text0)).foldl (processPart limit) ([], [])) :=
    foldl_pres _ _ (fun b a hb => processPart_inv limit b a hb) _ _
      ⟨by simp, by simp⟩
  obtain ⟨h1, h2⟩ := hinv
  simp only [smart_split_text]
  split_ifs with e1 e2
  · intro c hc
    simp only [List.mem_singleton] at hc
    subst hc
    exact e1
  · intro c hc
    rcases List.mem_append.mp hc with hc | hc
    · exact h1 c hc
    · simp only [List.mem_singleton] at hc; subst hc; exact h2
  · exact h1

/-- C10: for every input string and every limit >= 1, each chunk returned
by `smart_split_text` has length at most the limit, so every per-chunk TTS
request issued by `gen_one` in the split-and-concat path stays within the
`MAX_CHARS` input cap. -/
theorem smart_split_within_limit (text0 : Str) (limit : Nat) (_hl : 1 ≤ limit) :
    (∀ chunk ∈ smart_split_text text0 limit, chunk.length ≤ limit) ∧
    (∀ r ∈ genOneRequests text0 true, r.length ≤ MAX_CHARS) := by
  refine ⟨smart_split_all_le text0 limit, ?_⟩
  intro r hr
  by_cases hlen : text0.length ≤ MAX_CHARS
  · rw [genOneRequests, if_pos (Or.inr hlen)] at hr
    simp only [List.mem_singleton] at hr
    subst hr
    exact hlen
  · rw [genOneRequests, if_neg (by simp [hlen])] at hr
    exact smart_split_all_le text0 MAX_CHARS r hr

/-- Witness for C10 at the concrete input `"abc de"` with limit 2. -/
theorem smart_split_within_limit_witness :
    (1 ≤ 2) ∧
    ((∀ chunk ∈ smart_split_text ['a', 'b', 'c', ' ', 'd', 'e'] 2, chunk.length ≤ 2) ∧
     (∀ r ∈ genOneRequests ['a', 'b', 'c', ' ', 'd', 'e'] true, r.length ≤ MAX_CHARS)) :=
  ⟨by decide, smart_split_within_limit ['a', 'b', 'c', ' ', 'd', 'e'] 2 (by decide)⟩

/-- C4 counterexample: for the input `"a\n\nb"`, whose tokenization contains
an empty paragraph (two consecutive `"\n"` tokens), the wrapped output is
`["a", "b"]` and contains no empty (zero-width) line: the empty paragraph
is silently dropped, contrary to the claim. -/
theorem wrap_blank_line_counterexample :
    tokenize_mixed_text ['a', '\n', '\n', 'b'] = [['a'], ['\n'], ['\n'], ['b']] ∧
    wrap_tokens_to_width (fun s => s.length)
        (tokenize_mixed_text ['a', '\n', '\n', 'b']) 100 = [['a'], ['b']] ∧
    ([] : Str) ∉ wrap_tokens_to_width (fun s => s.length)
        (tokenize_mixed_text ['a', '\n', '\n', 'b']) 100 := by
  decide

/-- C4 amended: on a ParagraphBreak token the wrapper flushes the buffer
only when it has non-whitespace content, and a final filter removes
whitespace-only lines, so the wrapped output never contains a blank line
(empty paragraphs do not survive wrapping). -/
theorem wrap_no_blank_lines (w : Str → Nat) (tokens : List Str) (maxW : Int) :
    ∀ l ∈ wrap_tokens_to_width w tokens maxW, pyStrip l ≠ [] := by
  intro l hl
  simp only [wrap_tokens_to_width] at hl
  have := List.mem_filter.mp hl
  simpa using this.2

/-- Witness for the amended C4: a concrete line of a concrete wrap call. -/
theorem wrap_no_blank_lines_witness :
    (['a'] ∈ wrap_tokens_to_width (fun s => s.length) [['a']] 100) ∧
    pyStrip ['a'] ≠ [] :=
  ⟨by decide, wrap_no_blank_lines (fun s => s.length) [['a']] 100 ['a'] (by decide)⟩

/-- C5 counterexample: for the input `"a\n b"` the tokenizer emits a Space
token at the start of the second paragraph; the wrapper keeps it (the
single space fits the width budget), so the second wrapped line `" b"`
begins with a space character, contrary to the claim. -/
theorem wrap_leading_space_counterexample :
    tokenize_mixed_text ['a', '\n', ' ', 'b'] = [['a'], ['\n'], [' '], ['b']] ∧
    wrap_tokens_to_width (fun s => s.length)
        (tokenize_mixed_text ['a', '\n', ' ', 'b']) 100 = [['a'], [' ', 'b']] ∧
    ([' ', 'b'] : Str).head? = some ' ' := by
  decide

/-- C5 amended: a Space token arriving when the line buffer is empty is
kept (committed as the new buffer) whenever the single space fits
`max_width`, and dropped only otherwise; the wrapper discards spaces
unconditionally only in the overflow branch. -/
theorem wrap_space_on_empty_buffer (w : Str → Nat) (maxW : Int) (lines : List Str) :
    wrapStep w maxW (lines, []) [' '] =
      if (textW w [' '] : Int) ≤ maxW then (lines, ([' '] : Str))
      else (lines, ([] : Str)) := by
  have h1 : ([' '] : Str) ≠ ['\n'] := by decide
  by_cases h : (textW w [' '] : Int) ≤ maxW <;>
    simp [wrapStep, h1, h, pyStrip, pyLstrip, pyRstrip]

/-! Width bound for the wrapper (claim C3).  Token sequences of the data
model are embedded as lists of strings in which every token is a
ParagraphBreak `"\n"`, a Space `" "`, or a nonempty whitespace-free run
(the three shapes `tokenize_mixed_text` produces). -/

/-- A Run token of the data model: nonempty and whitespace-free. -/
abbrev IsRunTok (t : Str) : Prop := t ≠ [] ∧ ∀ c ∈ t, pyIsSpace c = false

/-- Token sequences as produced by the tokenizer. -/
abbrev WellformedTokens (ts : List Str) : Prop :=
  ∀ t ∈ ts, t = ['\n'] ∨ t = [' '] ∨ IsRunTok t

/-- A line within the width budget, or a single codepoint (the degenerate
hard-break exception). -/
abbrev GoodLine (w : Str → Nat) (maxW : Int) (l : Str) : Prop :=
  (textW w l : Int) ≤ maxW ∨ l.length = 1

/-- Invariant of the wrapper state: every emitted line with content is
good, and the stripped buffer, if it has content, is good. -/
def WrapInv (w : Str → Nat) (maxW : Int) (st : List Str × Str) : Prop :=
  (∀ l ∈ st.1, pyStrip l ≠ [] → GoodLine w maxW l) ∧
  (pyStrip st.2 ≠ [] → GoodLine w maxW (pyRstrip st.2))

/-- Invariant of the hard-break state: emitted lines with content are
good, and the sub-buffer is good (or empty) and whitespace-free. -/
def HBInv (w : Str → Nat) (maxW : Int) (st : List Str × Str) : Prop :=
  (∀ l ∈ st.1, pyStrip l ≠ [] → GoodLine w maxW l) ∧
  (GoodLine w maxW st.2 ∨ st.2 = []) ∧
  (∀ c ∈ st.2, pyIsSpace c = false)

theorem hardBreakStep_inv (w : Str → Nat) (maxW : Int) (st : List Str × Str)
    (ch : Char) (hch : pyIsSpace ch = false) (h : HBInv w maxW st) :
    HBInv w maxW (hardBreakStep w maxW st ch) := by
  obtain ⟨h1, h2, h3⟩ := h
  simp only [hardBreakStep]
  split_ifs with e1 e2 <;> (try dsimp only)
  · refine ⟨h1, Or.inl (Or.inl e1), ?_⟩
    intro c hc
    rcases List.mem_append.mp hc with hc | hc
    · exact h3 c hc
    · simp only [List.mem_singleton] at hc; subst hc; exact hch
  · refine ⟨?_, Or.inl (Or.inr (by simp)), ?_⟩
    · intro l hl hs
      rcases List.mem_append.mp hl with hl | hl
      · exact h1 l hl hs
      · simp only [List.mem_singleton] at hl
        subst hl
        rcases h2 with h2 | h2
        · exact h2
        · exact absurd h2 e2
    · intro c hc; simp only [List.mem_singleton] at hc; subst hc; exact hch
  · exact ⟨h1, Or.inl (Or.inr (by simp)),
      by intro c hc; simp only [List.mem_singleton] at hc; subst hc; exact hch⟩

theorem hardBreak_fold_inv (w : Str → Nat) (maxW : Int) :
    ∀ tok : Str, (∀ c ∈ tok, pyIsSpace c = false) →
      ∀ st, HBInv w maxW st →
        HBInv w maxW (tok.foldl (hardBreakStep w maxW) st) := by
  intro tok
  induction tok with
  | nil => intro _ st h; simpa using h
  | cons c rest ih =>
    intro htok st h
    simp only [List.foldl_cons]
    exact ih (fun d hd => htok d (List.mem_cons_of_mem _ hd)) _
      (hardBreakStep_inv _ _ _ _ (htok c (List.mem_cons_self _ _)) h)

theorem wrap_cand_eq (cur tok : Str) :
    (if cur ≠ [] then cur ++ tok else tok) = cur ++ tok := by
  split_ifs with e <;> simp_all

theorem pyStrip_nil : pyStrip ([] : Str) = [] := by
  simp [pyStrip, pyLstrip, pyRstrip]

theorem ite_pair_fst (c : Prop) [Decidable c] (a b : List Str × Str) :
    (if c then a else b).1 = if c then a.1 else b.1 := by
  split_ifs <;> rfl

theorem wrapStep_inv (w : Str → Nat) (maxW : Int) (st : List Str × Str) (tok : Str)
    (hwf : tok = ['\n'] ∨ tok = [' '] ∨ IsRunTok tok)
    (h : WrapInv w maxW st) : WrapInv w maxW (wrapStep w maxW st tok) := by
  obtain ⟨h1, h2⟩ := h
  have hflush : ∀ l ∈ (if pyStrip st.2 ≠ [] then st.1 ++ [pyRstrip st.2] else st.1),
      pyStrip l ≠ [] → GoodLine w maxW l := by
    split_ifs with e
    · intro l hl hs
      rcases List.mem_append.mp hl with hl | hl
      · exact h1 l hl hs
      · simp only [List.mem_singleton] at hl; subst hl; exact h2 e
    · exact h1
  rcases hwf with hwf | hwf | hwf
  · -- ParagraphBreak token
    subst hwf
    rw [wrapStep, if_pos rfl]
    exact ⟨hflush, by intro hs; rw [pyStrip_nil] at hs; exact absurd rfl hs⟩
  · -- Space token
    subst hwf
    have e0 : ¬([' '] : Str) = ['\n'] := by decide
    simp only [wrapStep, if_neg e0, wrap_cand_eq]
    by_cases e1 : (textW w (st.2 ++ [' ']) : Int) ≤ maxW
    · rw [if_pos e1]
      refine ⟨h1, ?_⟩
      intro hs
      rw [pyStrip_append_space] at hs
      rw [pyRstrip_append_space]
      exact h2 hs
    · rw [if_neg e1, if_pos trivial]
      split_ifs with e
      · refine ⟨?_, by intro hs; rw [pyStrip_nil] at hs; exact absurd rfl hs⟩
        intro l hl hs
        rcases List.mem_append.mp hl with hl | hl
        · exact h1 l hl hs
        · simp only [List.mem_singleton] at hl; subst hl; exact h2 e
      · exact ⟨h1, h2⟩
  · -- Run token
    obtain ⟨hne, hnw⟩ := hwf
    have e0 : ¬tok = ['\n'] := by
      rintro rfl
      exact absurd (hnw '\n' (by simp)) (by decide)
    have e2 : ¬tok = [' '] := by
      rintro rfl
      exact absurd (hnw ' ' (by simp)) (by decide)
    simp only [wrapStep, if_neg e0, wrap_cand_eq]
    by_cases e1 : (textW w (st.2 ++ tok) : Int) ≤ maxW
    · rw [if_pos e1]
      refine ⟨h1, ?_⟩
      intro _
      rw [pyRstrip_append_run st.2 tok hne hnw]
      exact Or.inl e1
    · rw [if_neg e1, if_neg e2]
      by_cases e3 : maxW < (textW w tok : Int)
      · rw [if_pos e3, ite_pair_fst]
        have hhb := hardBreak_fold_inv w maxW tok hnw
          ((if pyStrip st.2 ≠ [] then st.1 ++ [pyRstrip st.2] else st.1), ([] : Str))
          ⟨hflush, Or.inr rfl, by simp⟩
        obtain ⟨g1, g2, g3⟩ := hhb
        refine ⟨g1, ?_⟩
        intro hs
        rw [pyRstrip_eq_self _ g3]
        rcases g2 with g2 | g2
        · exact g2
        · rw [g2, pyStrip_nil] at hs; exact absurd rfl hs
      · rw [if_neg e3, ite_pair_fst]
        refine ⟨?_, ?_⟩
        · intro l hl hs
          revert hl
          split_ifs with e
          · intro hl
            rcases List.mem_append.mp hl with hl | hl
            · exact h1 l hl hs
            · simp only [List.mem_singleton] at hl; subst hl; exact h2 e
          · intro hl; exact h1 l hl hs
        · intro _
          rw [pyRstrip_eq_self _ hnw]
          exact Or.inl (not_lt.mp e3)

theorem wrap_fold_inv (w : Str → Nat) (maxW : Int) :
    ∀ toks : List Str, WellformedTokens toks →
      ∀ st, WrapInv w maxW st →
        WrapInv w maxW (toks.foldl (wrapStep w maxW) st) := by
  intro toks
  induction toks with
  | nil => intro _ st h; simpa using h
  | cons t ts ih =>
    intro hwf st h
    simp only [List.foldl_cons]
    exact ih (fun u hu => hwf u (List.mem_cons_of_mem _ hu)) _
      (wrapStep_inv w maxW st t (hwf t (List.mem_cons_self _ _)) h)

/-- C3: for every token sequence of the data model (ParagraphBreak, Space
or whitespace-free Run tokens, as the tokenizer produces), every font and
every max width, each line produced by `wrap_tokens_to_width` measures at
most `max_width`, except lines consisting of a single codepoint. -/
theorem wrap_width_bound (w : Str → Nat) (tokens : List Str) (maxW : Int)
    (hwf : WellformedTokens tokens) :
    ∀ l ∈ wrap_tokens_to_width w tokens maxW,
      (textW w l : Int) ≤ maxW ∨ l.length = 1 := by
  intro l hl
  obtain ⟨g1, g2⟩ := wrap_fold_inv w maxW tokens hwf ([], [])
    ⟨by simp, by intro hs; rw [pyStrip_nil] at hs; exact absurd rfl hs⟩
  simp only [wrap_tokens_to_width] at hl
  obtain ⟨hmem, hp⟩ := List.mem_filter.mp hl
  have hstrip : pyStrip l ≠ [] := by simpa using hp
  revert hmem
  split_ifs with e
  · intro hmem
    rcases List.mem_append.mp hmem with hm | hm
    · exact g1 l hm hstrip
    · simp only [List.mem_singleton] at hm; subst hm; exact g2 e
  · intro hmem
    exact g1 l hmem hstrip

/-- Witness for C3: a concrete wellformed token sequence whose wrap at
width 1 hard-breaks, applied at the line `"a"`. -/
theorem wrap_width_bound_witness :
    WellformedTokens [['a', 'b'], [' '], ['c']] ∧
    (['a'] ∈ wrap_tokens_to_width (fun s => s.length) [['a', 'b'], [' '], ['c']] 1) ∧
    ((textW (fun s => s.length) ['a'] : Int) ≤ 1 ∨ (['a'] : Str).length = 1) :=
  ⟨by decide, by decide,
    wrap_width_bound (fun s => s.length) [['a', 'b'], [' '], ['c']] 1 (by decide)
      ['a'] (by decide)⟩

/-! Lossless paragraph reconstruction (claim C6). -/

theorem pyIsSpace_eq_true_iff (c : Char) : pyIsSpace c = true ↔
    (c.toNat = 0x20 ∨ c.toNat = 0x9 ∨ c.toNat = 0xa ∨ c.toNat = 0xb ∨
    c.toNat = 0xc ∨ c.toNat = 0xd ∨ (0x1c ≤ c.toNat ∧ c.toNat ≤ 0x1f) ∨
    c.toNat = 0x85 ∨ c.toNat = 0xa0 ∨ c.toNat = 0x1680 ∨
    (0x2000 ≤ c.toNat ∧ c.toNat ≤ 0x200a) ∨ c.toNat = 0x2028 ∨
    c.toNat = 0x2029 ∨ c.toNat = 0x202f ∨ c.toNat = 0x205f ∨ c.toNat = 0x3000) := by
  simp [pyIsSpace]

theorem classify_none_iff (c : Char) : classifyChar c = none ↔ pyIsSpace c = true := by
  unfold classifyChar
  split_ifs with h1 h2 h3
  · constructor
    · intro h; simp at h
    · intro h; exfalso; rw [pyIsSpace_eq_true_iff] at h; omega
  · constructor
    · intro h; simp at h
    · intro h; exfalso; rw [pyIsSpace_eq_true_iff] at h; omega
  · exact ⟨fun _ => h3, fun _ => rfl⟩
  · constructor
    · intro h; simp at h
    · intro h; exact absurd h h3

theorem splitChar_ne_nil (sep : Char) (l : Str) : splitChar sep l ≠ [] := by
  induction l with
  | nil => simp [splitChar]
  | cons c rest ih =>
    rw [splitChar]
    split_ifs with e
    · simp
    · cases h : splitChar sep rest with
      | nil => simp
      | cons h' t => simp

/-- Joining with a single separator, the inverse direction of `splitChar`. -/
def joinWithChar (sep : Char) : List Str → Str
  | [] => []
  | [wd] => wd
  | wd :: rest => wd ++ sep :: joinWithChar sep rest

theorem joinWithChar_splitChar (sep : Char) (l : Str) :
    joinWithChar sep (splitChar sep l) = l := by
  induction l with
  | nil => rfl
  | cons c rest ih =>
    cases h : splitChar sep rest with
    | nil => exact absurd h (splitChar_ne_nil sep rest)
    | cons h' t =>
      rw [h] at ih
      rw [splitChar, h]
      split_ifs with e
      · have e1 : joinWithChar sep ([] :: h' :: t) =
            sep :: joinWithChar sep (h' :: t) := rfl
        rw [e1, ih, e]
      · dsimp only
        cases t with
        | nil =>
          have e1 : joinWithChar sep [h'] = h' := rfl
          rw [e1] at ih
          show c :: h' = c :: rest
          rw [ih]
        | cons t0 ts =>
          have e1 : joinWithChar sep (h' :: t0 :: ts) =
              h' ++ sep :: joinWithChar sep (t0 :: ts) := rfl
          rw [e1] at ih
          show (c :: h') ++ sep :: joinWithChar sep (t0 :: ts) = c :: rest
          rw [List.cons_append, ih]

theorem splitChar_sep_not_mem (sep : Char) (l : Str) :
    ∀ wd ∈ splitChar sep l, sep ∉ wd := by
  induction l with
  | nil => intro wd hw; simp [splitChar] at hw; subst hw; simp
  | cons c rest ih =>
    intro wd hw
    cases h : splitChar sep rest with
    | nil => exact absurd h (splitChar_ne_nil sep rest)
    | cons h' t =>
      rw [splitChar, h] at hw
      split_ifs at hw with e
      · rcases List.mem_cons.mp hw with hw | hw
        · subst hw; simp
        · exact ih wd (by rw [h]; exact hw)
      · dsimp only at hw
        rcases List.mem_cons.mp hw with hw | hw
        · subst hw
          intro hmem
          rcases List.mem_cons.mp hmem with hh | hh
          · exact e hh.symm
          · exact ih h' (by rw [h]; exact List.mem_cons_self _ _) hh
        · exact ih wd (by rw [h]; exact List.mem_cons_of_mem _ hw)

theorem splitChar_mem_chars (sep : Char) (l : Str) :
    ∀ wd ∈ splitChar sep l, ∀ c ∈ wd, c ∈ l := by
  induction l with
  | nil => intro wd hw; simp [splitChar] at hw; subst hw; simp
  | cons d rest ih =>
    intro wd hw c hc
    cases h : splitChar sep rest with
    | nil => exact absurd h (splitChar_ne_nil sep rest)
    | cons h' t =>
      rw [splitChar, h] at hw
      split_ifs at hw with e
      · rcases List.mem_cons.mp hw with hw | hw
        · subst hw; simp at hc
        · exact List.mem_cons_of_mem _ (ih wd (by rw [h]; exact hw) c hc)
      · dsimp only at hw
        rcases List.mem_cons.mp hw with hw | hw
        · subst hw
          rcases List.mem_cons.mp hc with hc | hc
          · subst hc; exact List.mem_cons_self _ _
          · exact List.mem_cons_of_mem _
              (ih h' (by rw [h]; exact List.mem_cons_self _ _) c hc)
        · exact List.mem_cons_of_mem _
            (ih wd (by rw [h]; exact List.mem_cons_of_mem _ hw) c hc)

theorem runsAux_flatten (s : Str) : ∀ st : Option (CClass × Str),
    (∀ c ∈ s, classifyChar c ≠ none) →
    (runsAux st s).flatten =
      (match st with | none => [] | some (_, r) => r.reverse) ++ s := by
  induction s with
  | nil =>
    intro st _
    cases st with
    | none => simp [runsAux]
    | some p => obtain ⟨k, r⟩ := p; simp [runsAux]
  | cons c rest ih =>
    intro st h
    have hc : classifyChar c ≠ none := h c (List.mem_cons_self _ _)
    have hrest : ∀ d ∈ rest, classifyChar d ≠ none :=
      fun d hd => h d (List.mem_cons_of_mem _ hd)
    cases st with
    | none =>
      cases hcc : classifyChar c with
      | none => exact absurd hcc hc
      | some k =>
        have e1 : runsAux none (c :: rest) = runsAux (some (k, [c])) rest := by
          rw [runsAux, hcc]
        rw [e1, ih (some (k, [c])) hrest]
        simp
    | some p =>
      obtain ⟨k', r⟩ := p
      cases hcc : classifyChar c with
      | none => exact absurd hcc hc
      | some k =>
        by_cases e : k = k'
        · have e1 : runsAux (some (k', r)) (c :: rest) =
              runsAux (some (k', c :: r)) rest := by
            rw [runsAux, hcc]; simp [e]
          rw [e1, ih (some (k', c :: r)) hrest]
          simp
        · have e1 : runsAux (some (k', r)) (c :: rest) =
              r.reverse :: runsAux (some (k, [c])) rest := by
            rw [runsAux, hcc]; simp [e]
          rw [e1, List.flatten_cons, ih (some (k, [c])) hrest]
          simp

theorem paraTokensAux_flatten (ws : List Str)
    (h : ∀ wd ∈ ws, ∀ c ∈ wd, classifyChar c ≠ none) :
    (paraTokensAux ws).flatten = joinWithChar ' ' ws := by
  induction ws with
  | nil => rfl
  | cons wd rest ih =>
    cases rest with
    | nil =>
      have e1 : paraTokensAux [wd] = runsOf wd := rfl
      have e2 : joinWithChar ' ' [wd] = wd := rfl
      rw [e1, e2]
      rw [runsOf, runsAux_flatten wd none (h wd (List.mem_cons_self _ _))]
      simp
    | cons w2 rest2 =>
      have e1 : paraTokensAux (wd :: w2 :: rest2) =
          runsOf wd ++ [' '] :: paraTokensAux (w2 :: rest2) := rfl
      have e2 : joinWithChar ' ' (wd :: w2 :: rest2) =
          wd ++ ' ' :: joinWithChar ' ' (w2 :: rest2) := rfl
      rw [e1, e2, List.flatten_append, List.flatten_cons]
      rw [runsOf, runsAux_flatten wd none (h wd (List.mem_cons_self _ _))]
      rw [ih (fun u hu => h u (List.mem_cons_of_mem _ hu))]
      simp

/-- C6 counterexample: the paragraph `"a\tb"` is not reconstructed - the
run regex classes all exclude whitespace, so the tab inside the word is
dropped by `findall` and the tokens concatenate to `"ab"`. -/
theorem tokenize_lossless_counterexample :
    tokenize_mixed_text ['a', '\t', 'b'] = [['a'], ['b']] ∧
    (paraTokensAux (splitChar ' ' ['a', '\t', 'b'])).flatten = ['a', 'b'] ∧
    (['a', 'b'] : Str) ≠ ['a', '\t', 'b'] := by
  decide

/-- C6 amended: for every paragraph whose whitespace characters are all
plain spaces `' '` (no tab or other Unicode whitespace - such codepoints
are skipped by the run regex and lost), concatenating the tokens produced
for that paragraph (each Space token being the one-character string
`" "`) reconstructs the paragraph losslessly. -/
theorem tokenize_paragraph_reconstruction (para : Str)
    (hws : ∀ c ∈ para, pyIsSpace c = true → c = ' ') :
    (paraTokensAux (splitChar ' ' para)).flatten = para := by
  rw [paraTokensAux_flatten]
  · exact joinWithChar_splitChar ' ' para
  · intro wd hwd c hc
    rw [Ne, classify_none_iff]
    intro hsp
    have hcp : c ∈ para := splitChar_mem_chars ' ' para wd hwd c hc
    have : c = ' ' := hws c hcp hsp
    subst this
    exact splitChar_sep_not_mem ' ' para wd hwd hc

/-- Witness for the amended C6 at the paragraph `"ab c"`. -/
theorem tokenize_paragraph_reconstruction_witness :
    (∀ c ∈ (['a', 'b', ' ', 'c'] : Str), pyIsSpace c = true → c = ' ') ∧
    (paraTokensAux (splitChar ' ' ['a', 'b', ' ', 'c'])).flatten =
      ['a', 'b', ' ', 'c'] :=
  ⟨by decide, tokenize_paragraph_reconstruction ['a', 'b', ' ', 'c'] (by decide)⟩

/-! Non-blank output for non-blank input (claim C7). -/

theorem not_ws_of_classify_some (c : Char) (h : classifyChar c ≠ none) :
    pyIsSpace c = false := by
  cases hb : pyIsSpace c with
  | false => rfl
  | true => exact absurd ((classify_none_iff c).mpr hb) h

theorem runsAux_wf (s : Str) : ∀ st : Option (CClass × Str),
    (∀ r, st = some r → r.2 ≠ [] ∧ ∀ c ∈ r.2, classifyChar c ≠ none) →
    ∀ x ∈ runsAux st s, x ≠ [] ∧ ∀ c ∈ x, classifyChar c ≠ none := by
  induction s with
  | nil =>
    intro st hst x hx
    cases st with
    | none => simp [runsAux] at hx
    | some p =>
      obtain ⟨k, r⟩ := p
      simp only [runsAux, List.mem_singleton] at hx
      subst hx
      obtain ⟨h1, h2⟩ := hst (k, r) rfl
      exact ⟨by simpa using h1, fun c hc => h2 c (List.mem_reverse.mp hc)⟩
  | cons c rest ih =>
    intro st hst x hx
    cases st with
    | none =>
      cases hcc : classifyChar c with
      | none =>
        have e1 : runsAux none (c :: rest) = runsAux none rest := by
          rw [runsAux, hcc]
        rw [e1] at hx
        exact ih none (by intro r hr; exact absurd hr (by simp)) x hx
      | some k =>
        have e1 : runsAux none (c :: rest) = runsAux (some (k, [c])) rest := by
          rw [runsAux, hcc]
        rw [e1] at hx
        refine ih (some (k, [c])) ?_ x hx
        intro r hr
        obtain rfl := Option.some.inj hr
        refine ⟨by simp, ?_⟩
        intro d hd
        simp only [List.mem_singleton] at hd
        subst hd
        rw [hcc]
        simp
    | some p =>
      obtain ⟨k', r⟩ := p
      obtain ⟨hr1, hr2⟩ := hst (k', r) rfl
      cases hcc : classifyChar c with
      | none =>
        have e1 : runsAux (some (k', r)) (c :: rest) =
            r.reverse :: runsAux none rest := by
          rw [runsAux, hcc]
        rw [e1] at hx
        rcases List.mem_cons.mp hx with hx | hx
        · subst hx
          exact ⟨by simpa using hr1, fun d hd => hr2 d (List.mem_reverse.mp hd)⟩
        · exact ih none (by intro r' hr'; exact absurd hr' (by simp)) x hx
      | some k =>
        by_cases e : k = k'
        · have e1 : runsAux (some (k', r)) (c :: rest) =
              runsAux (some (k', c :: r)) rest := by
            rw [runsAux, hcc]; simp [e]
          rw [e1] at hx
          refine ih (some (k', c :: r)) ?_ x hx
          intro r' hr'
          obtain rfl := Option.some.inj hr'
          refine ⟨by simp, ?_⟩
          intro d hd
          rcases List.mem_cons.mp hd with hd | hd
          · subst hd; rw [hcc]; simp
          · exact hr2 d hd
        · have e1 : runsAux (some (k', r)) (c :: rest) =
              r.reverse :: runsAux (some (k, [c])) rest := by
            rw [runsAux, hcc]; simp [e]
          rw [e1] at hx
          rcases List.mem_cons.mp hx with hx | hx
          · subst hx
            exact ⟨by simpa using hr1, fun d hd => hr2 d (List.mem_reverse.mp hd)⟩
          · refine ih (some (k, [c])) ?_ x hx
            intro r' hr'
            obtain rfl := Option.some.inj hr'
            refine ⟨by simp, ?_⟩
            intro d hd
            simp only [List.mem_singleton] at hd
            subst hd
            rw [hcc]
            simp

theorem runsOf_wf (s : Str) : ∀ x ∈ runsOf s, IsRunTok x := by
  intro x hx
  have h := runsAux_wf s none (by intro r hr; exact absurd hr (by simp)) x hx
  exact ⟨h.1, fun c hc => not_ws_of_classify_some c (h.2 c hc)⟩

theorem runsAux_ne_nil (s : Str) : ∀ (k' : CClass) (r : Str),
    runsAux (some (k', r)) s ≠ [] := by
  induction s with
  | nil => intro k' r; simp [runsAux]
  | cons c rest ih =>
    intro k' r
    cases hcc : classifyChar c with
    | none =>
      have e1 : runsAux (some (k', r)) (c :: rest) =
          r.reverse :: runsAux none rest := by rw [runsAux, hcc]
      rw [e1]; simp
    | some k =>
      by_cases e : k = k'
      · have e1 : runsAux (some (k', r)) (c :: rest) =
            runsAux (some (k', c :: r)) rest := by rw [runsAux, hcc]; simp [e]
        rw [e1]; exact ih k' (c :: r)
      · have e1 : runsAux (some (k', r)) (c :: rest) =
            r.reverse :: runsAux (some (k, [c])) rest := by rw [runsAux, hcc]; simp [e]
        rw [e1]; simp

theorem runsOf_ne_nil (s : Str) (c : Char) (hc : c ∈ s)
    (hcc : classifyChar c ≠ none) : runsOf s ≠ [] := by
  induction s with
  | nil => simp at hc
  | cons d rest ih =>
    cases hdd : classifyChar d with
    | some k =>
      have e1 : runsOf (d :: rest) = runsAux (some (k, [d])) rest := by
        rw [runsOf, runsAux, hdd]
      rw [e1]
      exact runsAux_ne_nil rest k [d]
    | none =>
      have hcr : c ∈ rest := by
        rcases List.mem_cons.mp hc with h | h
        · subst h; exact absurd hdd hcc
        · exact h
      have e1 : runsOf (d :: rest) = runsOf rest := by
        rw [runsOf, runsAux, hdd]; rfl
      rw [e1]
      exact ih hcr

theorem mem_paraTokensAux (ws : List Str) :
    ∀ t ∈ paraTokensAux ws, t = [' '] ∨ ∃ wd ∈ ws, t ∈ runsOf wd := by
  induction ws with
  | nil => simp [paraTokensAux]
  | cons wd rest ih =>
    cases rest with
    | nil =>
      intro t ht
      right
      exact ⟨wd, List.mem_cons_self _ _, ht⟩
    | cons w2 r2 =>
      intro t ht
      have e1 : paraTokensAux (wd :: w2 :: r2) =
          runsOf wd ++ [' '] :: paraTokensAux (w2 :: r2) := rfl
      rw [e1] at ht
      rcases List.mem_append.mp ht with h | h
      · right; exact ⟨wd, List.mem_cons_self _ _, h⟩
      · rcases List.mem_cons.mp h with h | h
        · left; exact h
        · rcases ih t h with h | ⟨u, hu, hru⟩
          · left; exact h
          · right; exact ⟨u, List.mem_cons_of_mem _ hu, hru⟩

theorem runsOf_mem_paraTokensAux (ws : List Str) :
    ∀ wd ∈ ws, ∀ r ∈ runsOf wd, r ∈ paraTokensAux ws := by
  induction ws with
  | nil => intro wd hw; simp at hw
  | cons w0 rest ih =>
    intro wd hw r hr
    cases rest with
    | nil =>
      rcases List.mem_cons.mp hw with h | h
      · subst h; exact hr
      · simp at h
    | cons w2 r2 =>
      have e1 : paraTokensAux (w0 :: w2 :: r2) =
          runsOf w0 ++ [' '] :: paraTokensAux (w2 :: r2) := rfl
      rw [e1]
      rcases List.mem_cons.mp hw with h | h
      · subst h; exact List.mem_append.mpr (Or.inl hr)
      · exact List.mem_append.mpr
          (Or.inr (List.mem_cons_of_mem _ (ih wd h r hr)))

theorem mem_of_mem_dropLast {α : Type} {l : List α} {a : α}
    (h : a ∈ l.dropLast) : a ∈ l := by
  induction l with
  | nil => simp at h
  | cons b t ih =>
    cases t with
    | nil => simp at h
    | cons c u =>
      rcases List.mem_cons.mp h with h | h
      · subst h; exact List.mem_cons_self _ _
      · exact List.mem_cons_of_mem _ (ih h)

/-- Every token the tokenizer emits is a ParagraphBreak, a Space, or a
nonempty whitespace-free run. -/
theorem tokenize_wellformed (s : Str) : WellformedTokens (tokenize_mixed_text s) := by
  intro t ht
  simp only [tokenize_mixed_text] at ht
  have ht' := mem_of_mem_dropLast ht
  obtain ⟨blk, hblk, htb⟩ := List.mem_flatten.mp ht'
  obtain ⟨para, _, rfl⟩ := List.mem_map.mp hblk
  revert htb
  simp only [paraBlock]
  split_ifs with hp
  · intro htb
    simp only [List.mem_singleton] at htb
    left; exact htb
  · intro htb
    rcases List.mem_append.mp htb with h | h
    · rcases mem_paraTokensAux _ t h with h | ⟨wd, _, hrw⟩
      · right; left; exact h
      · right; right; exact runsOf_wf wd t hrw
    · simp only [List.mem_singleton] at h
      left; exact h

theorem mem_replaceCRLF (s : Str) (c : Char) (h1 : c ≠ '\r') (h2 : c ≠ '\n')
    (hc : c ∈ s) : c ∈ replaceCRLF s := by
  induction s using replaceCRLF.induct with
  | case1 rest ih =>
    rcases List.mem_cons.mp hc with h | h
    · exact absurd h h1
    · rcases List.mem_cons.mp h with h | h
      · exact absurd h h2
      · exact List.mem_cons_of_mem _ (ih h)
  | case2 d rest hg ih =>
    rw [replaceCRLF]
    · rcases List.mem_cons.mp hc with h | h
      · subst h; exact List.mem_cons_self _ _
      · exact List.mem_cons_of_mem _ (ih h)
    · exact hg
  | case3 => simp at hc

theorem mem_normalize (s : Str) (c : Char) (hw : pyIsSpace c = false)
    (hc : c ∈ s) : c ∈ normalizeNewlines s := by
  have h1 : c ≠ '\r' := by rintro rfl; exact absurd hw (by decide)
  have h2 : c ≠ '\n' := by rintro rfl; exact absurd hw (by decide)
  refine List.mem_map.mpr ⟨c, mem_replaceCRLF s c h1 h2 hc, ?_⟩
  simp [h1]

theorem mem_splitChar_of_mem (sep : Char) (l : Str) (c : Char) (hc : c ∈ l)
    (hne : c ≠ sep) : ∃ wd ∈ splitChar sep l, c ∈ wd := by
  induction l with
  | nil => simp at hc
  | cons d rest ih =>
    cases h : splitChar sep rest with
    | nil => exact absurd h (splitChar_ne_nil sep rest)
    | cons h' t =>
      rw [splitChar, h]
      split_ifs with e
      · have hcr : c ∈ rest := by
          rcases List.mem_cons.mp hc with h0 | h0
          · exact absurd (h0.trans e) hne
          · exact h0
        obtain ⟨wd, hwd, hcw⟩ := ih hcr
        rw [h] at hwd
        exact ⟨wd, List.mem_cons_of_mem _ hwd, hcw⟩
      · dsimp only
        rcases List.mem_cons.mp hc with h0 | h0
        · refine ⟨d :: h', List.mem_cons_self _ _, ?_⟩
          rw [h0]
          exact List.mem_cons_self _ _
        · obtain ⟨wd, hwd, hcw⟩ := ih h0
          rw [h] at hwd
          rcases List.mem_cons.mp hwd with h1 | h1
          · subst h1
            exact ⟨d :: wd, List.mem_cons_self _ _, List.mem_cons_of_mem _ hcw⟩
          · exact ⟨wd, List.mem_cons_of_mem _ h1, hcw⟩

theorem blocks_concat (paras : List Str) : paras ≠ [] →
    ∃ ys, (paras.map paraBlock).flatten = ys ++ [['\n']] := by
  induction paras with
  | nil => intro h; exact absurd rfl h
  | cons p rest ih =>
    intro _
    cases rest with
    | nil =>
      by_cases hp : p = []
      · exact ⟨[], by simp [paraBlock, hp]⟩
      · exact ⟨paraTokensAux (splitChar ' ' p), by simp [paraBlock, hp]⟩
    | cons q qs =>
      obtain ⟨ys, hys⟩ := ih (by simp)
      refine ⟨paraBlock p ++ ys, ?_⟩
      simp only [List.map_cons, List.flatten_cons] at hys ⊢
      rw [hys, List.append_assoc]

theorem tokenize_mem_of_block (s : Str) (t : Str) (para : Str)
    (hpara : para ∈ splitChar '\n' (normalizeNewlines s))
    (ht : t ∈ paraBlock para) (hne : t ≠ ['\n']) : t ∈ tokenize_mixed_text s := by
  simp only [tokenize_mixed_text]
  obtain ⟨ys, hys⟩ := blocks_concat (splitChar '\n' (normalizeNewlines s))
    (splitChar_ne_nil _ _)
  rw [hys, List.dropLast_concat]
  have hmem : t ∈ ys ++ [['\n']] := by
    rw [← hys]
    exact List.mem_flatten.mpr ⟨paraBlock para, List.mem_map.mpr ⟨para, hpara, rfl⟩, ht⟩
  rcases List.mem_append.mp hmem with h | h
  · exact h
  · simp only [List.mem_singleton] at h
    exact absurd h hne

/-- Any non-whitespace codepoint of the input gives rise to a Run token in
the tokenizer output. -/
theorem tokenize_has_run (s : Str) (c : Char) (hc : c ∈ s)
    (hw : pyIsSpace c = false) : ∃ t ∈ tokenize_mixed_text s, IsRunTok t := by
  have hc1 : c ∈ normalizeNewlines s := mem_normalize s c hw hc
  have hcn : c ≠ '\n' := by rintro rfl; exact absurd hw (by decide)
  obtain ⟨para, hpara, hcp⟩ := mem_splitChar_of_mem '\n' (normalizeNewlines s) c hc1 hcn
  have hcsp : c ≠ ' ' := by rintro rfl; exact absurd hw (by decide)
  obtain ⟨wd, hwd, hcw⟩ := mem_splitChar_of_mem ' ' para c hcp hcsp
  have hcls : classifyChar c ≠ none := by
    rw [Ne, classify_none_iff]
    simp [hw]
  obtain ⟨r, hr⟩ : ∃ r, r ∈ runsOf wd := by
    cases hruns : runsOf wd with
    | nil => exact absurd hruns (runsOf_ne_nil wd c hcw hcls)
    | cons r0 rs => exact ⟨r0, List.mem_cons_self _ _⟩
  have hrun : IsRunTok r := runsOf_wf wd r hr
  have hrne : r ≠ ['\n'] := by
    rintro rfl
    exact absurd (hrun.2 '\n' (List.mem_cons_self _ _)) (by decide)
  have hpne : para ≠ [] := by rintro rfl; simp at hcp
  refine ⟨r, tokenize_mem_of_block s r para hpara ?_ hrne, hrun⟩
  rw [paraBlock, if_neg hpne]
  exact List.mem_append.mpr (Or.inl (runsOf_mem_paraTokensAux _ wd hwd r hr))

/-- The wrapper state holds content: some emitted line, or the buffer,
has a non-whitespace character. -/
def HasContent (st : List Str × Str) : Prop :=
  (∃ l ∈ st.1, pyStrip l ≠ []) ∨ pyStrip st.2 ≠ []

theorem hardBreak_fold_extend (w : Str → Nat) (maxW : Int) :
    ∀ (chars : Str) (st : List Str × Str),
      ∃ ex, (List.foldl (hardBreakStep w maxW) st chars).1 = st.1 ++ ex := by
  intro chars
  induction chars with
  | nil => intro st; exact ⟨[], by simp⟩
  | cons c rest ih =>
    intro st
    simp only [List.foldl_cons]
    obtain ⟨ex1, hex1⟩ := ih (hardBreakStep w maxW st c)
    have hstep : ∃ ex0, (hardBreakStep w maxW st c).1 = st.1 ++ ex0 := by
      simp only [hardBreakStep]
      split_ifs with e1 e2
      · exact ⟨[], by simp⟩
      · exact ⟨[st.2], rfl⟩
      · exact ⟨[], by simp⟩
    obtain ⟨ex0, hex0⟩ := hstep
    exact ⟨ex0 ++ ex1, by rw [hex1, hex0, List.append_assoc]⟩

theorem hardBreakStep_buf_nw (w : Str → Nat) (maxW : Int) (st : List Str × Str)
    (c : Char) (hst : ∀ d ∈ st.2, pyIsSpace d = false) (hc : pyIsSpace c = false) :
    ∀ d ∈ (hardBreakStep w maxW st c).2, pyIsSpace d = false := by
  simp only [hardBreakStep]
  split_ifs with e1 e2 <;> intro d hd
  · rcases List.mem_append.mp hd with hd | hd
    · exact hst d hd
    · simp only [List.mem_singleton] at hd; subst hd; exact hc
  · simp only [List.mem_singleton] at hd; subst hd; exact hc
  · simp only [List.mem_singleton] at hd; subst hd; exact hc

theorem hardBreak_fold_buf (w : Str → Nat) (maxW : Int) :
    ∀ (chars : Str), chars ≠ [] → (∀ c ∈ chars, pyIsSpace c = false) →
      ∀ st : List Str × Str, (∀ d ∈ st.2, pyIsSpace d = false) →
        (List.foldl (hardBreakStep w maxW) st chars).2 ≠ [] ∧
        ∀ d ∈ (List.foldl (hardBreakStep w maxW) st chars).2, pyIsSpace d = false := by
  intro chars
  induction chars with
  | nil => intro h; exact absurd rfl h
  | cons c rest ih =>
    intro _ hnw st hst
    simp only [List.foldl_cons]
    have hc : pyIsSpace c = false := hnw c (List.mem_cons_self _ _)
    have hbuf := hardBreakStep_buf_nw w maxW st c hst hc
    by_cases hr : rest = []
    · subst hr
      simp only [List.foldl_nil]
      refine ⟨?_, hbuf⟩
      simp only [hardBreakStep]
      split_ifs <;> simp
    · exact ih hr (fun d hd => hnw d (List.mem_cons_of_mem _ hd)) _ hbuf

theorem wrapStep_extend (w : Str → Nat) (maxW : Int) (st : List Str × Str)
    (tok : Str) : ∃ ex, (wrapStep w maxW st tok).1 = st.1 ++ ex := by
  simp only [wrapStep, wrap_cand_eq]
  split_ifs <;> (try dsimp only) <;>
    first
    | exact ⟨[], (List.append_nil _).symm⟩
    | exact ⟨[pyRstrip st.2], rfl⟩
    | (obtain ⟨ex, hex⟩ :=
        hardBreak_fold_extend w maxW tok (st.1 ++ [pyRstrip st.2], ([] : Str))
       exact ⟨[pyRstrip st.2] ++ ex, by rw [hex]; exact List.append_assoc _ _ _⟩)
    | (obtain ⟨ex, hex⟩ := hardBreak_fold_extend w maxW tok (st.1, ([] : Str))
       exact ⟨ex, hex⟩)

theorem wrapStep_content_pres (w : Str → Nat) (maxW : Int) (st : List Str × Str)
    (tok : Str) (h : HasContent st) : HasContent (wrapStep w maxW st tok) := by
  rcases h with ⟨l, hl, hs⟩ | hs
  · obtain ⟨ex, hex⟩ := wrapStep_extend w maxW st tok
    exact Or.inl ⟨l, (by rw [hex]; exact List.mem_append.mpr (Or.inl hl)), hs⟩
  · obtain ⟨cc, hcc, hcw⟩ := (pyStrip_ne_nil_iff st.2).mp hs
    have hgood : pyStrip (pyRstrip st.2) ≠ [] := by
      rw [pyStrip_pyRstrip]; exact hs
    simp only [wrapStep, wrap_cand_eq]
    split_ifs <;> (try dsimp only) <;>
      first
      | exact absurd hs (by assumption)
      | exact Or.inr ((pyStrip_ne_nil_iff _).mpr
          ⟨cc, List.mem_append.mpr (Or.inl hcc), hcw⟩)
      | exact Or.inl ⟨pyRstrip st.2,
          List.mem_append.mpr (Or.inr (List.mem_cons_self _ _)), hgood⟩
      | (obtain ⟨ex, hex⟩ :=
          hardBreak_fold_extend w maxW tok (st.1 ++ [pyRstrip st.2], ([] : Str))
         exact Or.inl ⟨pyRstrip st.2,
           (by rw [hex]
               exact List.mem_append.mpr
                 (Or.inl (List.mem_append.mpr (Or.inr (List.mem_cons_self _ _))))),
           hgood⟩)

theorem wrapStep_content_run (w : Str → Nat) (maxW : Int) (st : List Str × Str)
    (tok : Str) (hrun : IsRunTok tok) : HasContent (wrapStep w maxW st tok) := by
  obtain ⟨hne, hnw⟩ := hrun
  obtain ⟨c0, hc0⟩ : ∃ c0, c0 ∈ tok := List.exists_mem_of_ne_nil tok hne
  have e0 : ¬tok = ['\n'] := by
    rintro rfl
    exact absurd (hnw '\n' (List.mem_cons_self _ _)) (by decide)
  have e2 : ¬tok = [' '] := by
    rintro rfl
    exact absurd (hnw ' ' (List.mem_cons_self _ _)) (by decide)
  simp only [wrapStep, if_neg e0, wrap_cand_eq]
  split_ifs <;> (try dsimp only) <;>
    first
    | exact absurd (by assumption) e2
    | exact Or.inr ((pyStrip_ne_nil_iff _).mpr
        ⟨c0, List.mem_append.mpr (Or.inr hc0), hnw c0 hc0⟩)
    | (obtain ⟨hbufne, hbufnw⟩ := hardBreak_fold_buf w maxW tok hne hnw
        ((st.1 ++ [pyRstrip st.2] : List Str), ([] : Str)) (by simp)
       obtain ⟨d, hd⟩ := List.exists_mem_of_ne_nil _ hbufne
       exact Or.inr ((pyStrip_ne_nil_iff _).mpr ⟨d, hd, hbufnw d hd⟩))
    | (obtain ⟨hbufne, hbufnw⟩ := hardBreak_fold_buf w maxW tok hne hnw
        ((st.1 : List Str), ([] : Str)) (by simp)
       obtain ⟨d, hd⟩ := List.exists_mem_of_ne_nil _ hbufne
       exact Or.inr ((pyStrip_ne_nil_iff _).mpr ⟨d, hd, hbufnw d hd⟩))
    | exact Or.inr ((pyStrip_ne_nil_iff _).mpr ⟨c0, hc0, hnw c0 hc0⟩)

theorem wrap_fold_content (w : Str → Nat) (maxW : Int) :
    ∀ (toks : List Str) (st : List Str × Str),
      (HasContent st ∨ ∃ t ∈ toks, IsRunTok t) →
      HasContent (List.foldl (wrapStep w maxW) st toks) := by
  intro toks
  induction toks with
  | nil =>
    intro st h
    rcases h with h | ⟨t, ht, _⟩
    · simpa using h
    · simp at ht
  | cons t ts ih =>
    intro st h
    simp only [List.foldl_cons]
    rcases h with h | ⟨u, hu, hru⟩
    · exact ih _ (Or.inl (wrapStep_content_pres w maxW st t h))
    · rcases List.mem_cons.mp hu with hu | hu
      · subst hu
        exact ih _ (Or.inl (wrapStep_content_run w maxW st u hru))
      · exact ih _ (Or.inr ⟨u, hu, hru⟩)

/-- Wrapping a token sequence that contains a Run token always yields at
least one line. -/
theorem wrap_ne_nil (w : Str → Nat) (tokens : List Str) (maxW : Int)
    (h : ∃ t ∈ tokens, IsRunTok t) : wrap_tokens_to_width w tokens maxW ≠ [] := by
  have hc := wrap_fold_content w maxW tokens ([], []) (Or.inr h)
  simp only [wrap_tokens_to_width]
  rcases hc with ⟨l, hl, hs⟩ | hs
  · refine List.ne_nil_of_mem (a := l) (List.mem_filter.mpr ⟨?_, by simpa⟩)
    split_ifs with e
    · exact List.mem_append.mpr (Or.inl hl)
    · exact hl
  · refine List.ne_nil_of_mem (a := pyRstrip (tokens.foldl (wrapStep w maxW) ([], [])).2)
      (List.mem_filter.mpr ⟨?_, ?_⟩)
    · rw [if_pos hs]
      exact List.mem_append.mpr (Or.inr (List.mem_cons_self _ _))
    · simp only [decide_eq_true_eq]
      rw [pyStrip_pyRstrip]
      exact hs

theorem fitLoop_some (W : Int → Str → Nat) (asc desc : Int → Nat) (spacing : Int)
    (tokens : List Str) (bw bh : Int) :
    ∀ (cs : List Int) (s : Int) (lines : List Str),
      fitLoop W asc desc spacing tokens bw bh cs = some (s, lines) →
      lines = wrap_tokens_to_width (W s) tokens bw ∧ s ∈ cs ∧
        heightFits W asc desc spacing tokens bw bh s := by
  intro cs
  induction cs with
  | nil => intro s lines h; simp [fitLoop] at h
  | cons c rest ih =>
    intro s lines h
    simp only [fitLoop] at h
    split_ifs at h with e
    · simp only [Option.some.injEq, Prod.mk.injEq] at h
      obtain ⟨h1, h2⟩ := h
      subst h1
      subst h2
      exact ⟨rfl, List.mem_cons_self _ _, e⟩
    · obtain ⟨h1, h2, h3⟩ := ih s lines h
      exact ⟨h1, List.mem_cons_of_mem _ h2, h3⟩

theorem take_ne_nil_of_pos {α : Type} (n : Nat) (l : List α) (hn : 1 ≤ n)
    (hl : l ≠ []) : l.take n ≠ [] := by
  cases l with
  | nil => exact absurd rfl hl
  | cons a t =>
    cases n with
    | zero => omega
    | succ m => simp

/-- C7 counterexample: the input `" "` (a single space) is non-empty, yet
`fit_text_in_box` returns zero lines: the space token is committed to the
buffer but the final flush keeps only buffers with non-whitespace
content. -/
theorem fit_whitespace_input_counterexample :
    (fit_text_in_box (fun sz s => s.length * sz.toNat) (fun s => s.toNat)
        (fun _ => 0) [' '] 10 10 7 5 0).lines = [] ∧
    ([' '] : Str) ≠ [] := by
  constructor
  · rfl
  · decide

/-- C7 amended: for every input text containing at least one
non-whitespace character, and every box geometry - including zero or
negative width or height - `fit_text_in_box` returns at least one line
(provided the line height at `min_size` is positive, as for real font
metrics; width 0 forces the character-level hard break and height 0 is
absorbed by the `max(1, ...)` floor on `max_lines`).  Whitespace-only
input, though non-empty, yields zero lines. -/
theorem fit_returns_line_for_content (W : Int → Str → Nat) (asc desc : Int → Nat)
    (text : Str) (bw bh startSize minSize spacing : Int)
    (hc : ∃ c ∈ text, pyIsSpace c = false)
    (_hlh : 0 < lineHeight asc desc spacing minSize) :
    (fit_text_in_box W asc desc text bw bh startSize minSize spacing).lines ≠ [] := by
  obtain ⟨c, hcs, hw⟩ := hc
  have hrun := tokenize_has_run text c hcs hw
  have hwrap : ∀ sz : Int,
      wrap_tokens_to_width (W sz) (tokenize_mixed_text text) bw ≠ [] :=
    fun sz => wrap_ne_nil _ _ _ hrun
  simp only [fit_text_in_box]
  cases hloop : fitLoop W asc desc spacing (tokenize_mixed_text text) bw bh
      (pyRange2Down startSize (minSize - 1)) with
  | some p =>
    obtain ⟨s, lines⟩ := p
    obtain ⟨hl, _, _⟩ := fitLoop_some W asc desc spacing (tokenize_mixed_text text)
      bw bh _ s lines hloop
    dsimp only
    rw [hl]
    exact hwrap s
  | none =>
    dsimp only
    have hL := hwrap minSize
    have hmax : 1 ≤ (max 1 (Int.fdiv bh (lineHeight asc desc spacing minSize))).toNat := by
      have h1 : (1 : Int) ≤ max 1 (Int.fdiv bh (lineHeight asc desc spacing minSize)) :=
        le_max_left _ _
      omega
    have hkept := take_ne_nil_of_pos _ _ hmax hL
    split_ifs with htr
    · cases hgl : (wrap_tokens_to_width (W minSize) (tokenize_mixed_text text) bw).take
          (max 1 (Int.fdiv bh (lineHeight asc desc spacing minSize))).toNat |>.getLast? with
      | none => dsimp only; exact hkept
      | some last => dsimp only; simp
    · exact hkept

/-- Witness for the amended C7 at the concrete input `"ab"` with a
degenerate box of width 0 and height 0. -/
theorem fit_returns_line_for_content_witness :
    (∃ c ∈ (['a', 'b'] : Str), pyIsSpace c = false) ∧
    (0 : Int) < lineHeight (fun s => s.toNat) (fun _ => 0) 0 2 ∧
    (fit_text_in_box (fun sz s => s.length * sz.toNat) (fun s => s.toNat)
        (fun _ => 0) ['a', 'b'] 0 0 3 2 0).lines ≠ [] :=
  ⟨by decide, by decide,
    fit_returns_line_for_content (fun sz s => s.length * sz.toNat) (fun s => s.toNat)
      (fun _ => 0) ['a', 'b'] 0 0 3 2 0 (by decide) (by decide)⟩

/-! The descending size search (claim C1). -/

theorem pyRange2Down_sorted (a b : Int) : (pyRange2Down a b).Pairwise (· > ·) := by
  unfold pyRange2Down
  refine List.pairwise_map.mpr ?_
  refine List.Pairwise.imp ?_ (List.pairwise_lt_range _)
  intro i j h
  simp only [Int.ofNat_eq_natCast]
  omega

theorem fitLoop_first (W : Int → Str → Nat) (asc desc : Int → Nat) (spacing : Int)
    (tokens : List Str) (bw bh : Int) :
    ∀ cs : List Int, cs.Pairwise (· > ·) →
      ∀ s ∈ cs, heightFits W asc desc spacing tokens bw bh s →
      ∃ s0, fitLoop W asc desc spacing tokens bw bh cs =
          some (s0, wrap_tokens_to_width (W s0) tokens bw) ∧
        s0 ∈ cs ∧ heightFits W asc desc spacing tokens bw bh s0 ∧
        ∀ s' ∈ cs, heightFits W asc desc spacing tokens bw bh s' → s' ≤ s0 := by
  intro cs
  induction cs with
  | nil => intro _ s hs; simp at hs
  | cons c rest ih =>
    intro hpw s hs hfit
    by_cases e : heightFits W asc desc spacing tokens bw bh c
    · refine ⟨c, ?_, List.mem_cons_self _ _, e, ?_⟩
      · simp only [fitLoop]
        rw [if_pos e]
      · intro s' hs' hf'
        rcases List.mem_cons.mp hs' with h | h
        · subst h; exact le_refl _
        · exact le_of_lt ((List.pairwise_cons.mp hpw).1 s' h)
    · have hsrest : s ∈ rest := by
        rcases List.mem_cons.mp hs with h | h
        · subst h; exact absurd hfit e
        · exact h
      obtain ⟨s0, h1, h2, h3, h4⟩ :=
        ih (List.pairwise_cons.mp hpw).2 s hsrest hfit
      refine ⟨s0, ?_, List.mem_cons_of_mem _ h2, h3, ?_⟩
      · simp only [fitLoop]
        rw [if_neg e]
        exact h1
      · intro s' hs' hf'
        rcases List.mem_cons.mp hs' with h | h
        · subst h; exact absurd hf' e
        · exact h4 s' h hf'

/-- C1 counterexample: the loop steps by the hardcoded 2, not by a
`size_step` parameter.  With `start_size = 7`, `min_size = 5`, a box of
height 6 and metrics making size `s` occupy height `s`, size 6 (the
candidate `start_size - size_step` for `size_step = 1`) fits the budget,
yet the code skips it (candidates are `[7, 5]`) and returns 5, a smaller
size than the claim's first fitting candidate. -/
theorem fit_sizestep_counterexample :
    (fit_text_in_box (fun sz s => s.length * sz.toNat) (fun s => s.toNat)
        (fun _ => 0) ['a', 'a', 'a', 'a'] 100 6 7 5 0).chosenSize = 5 ∧
    pyRange2Down 7 (5 - 1) = [7, 5] ∧
    (5 : Int) ≤ 6 ∧ (6 : Int) ≤ 7 ∧
    heightFits (fun sz s => s.length * sz.toNat) (fun s => s.toNat) (fun _ => 0) 0
      (tokenize_mixed_text ['a', 'a', 'a', 'a']) 100 6 6 ∧
    ¬(6 : Int) ≤ (5 : Int) := by
  refine ⟨rfl, by decide, by decide, by decide, by decide, by decide⟩

/-- C1 amended: the step is fixed at 2 (`range(start_size, min_size - 1,
-2)`), so the candidate sizes are `start_size, start_size - 2, ...`,
ending at `min_size` when `start_size - min_size` is even and at
`min_size + 1` when it is odd; whenever some candidate satisfies the
height budget, `fit_text_in_box` returns the first - hence largest -
fitting candidate together with the lines wrapped at that size and
`truncated = false`. -/
theorem fit_first_fitting_candidate (W : Int → Str → Nat) (asc desc : Int → Nat)
    (text : Str) (bw bh startSize minSize spacing : Int) (s : Int)
    (hs : s ∈ pyRange2Down startSize (minSize - 1))
    (hfit : heightFits W asc desc spacing (tokenize_mixed_text text) bw bh s) :
    (fit_text_in_box W asc desc text bw bh startSize minSize spacing).truncated = false ∧
    (fit_text_in_box W asc desc text bw bh startSize minSize spacing).chosenSize ∈
      pyRange2Down startSize (minSize - 1) ∧
    heightFits W asc desc spacing (tokenize_mixed_text text) bw bh
      (fit_text_in_box W asc desc text bw bh startSize minSize spacing).chosenSize ∧
    (fit_text_in_box W asc desc text bw bh startSize minSize spacing).lines =
      wrap_tokens_to_width
        (W (fit_text_in_box W asc desc text bw bh startSize minSize spacing).chosenSize)
        (tokenize_mixed_text text) bw ∧
    ∀ s' ∈ pyRange2Down startSize (minSize - 1),
      heightFits W asc desc spacing (tokenize_mixed_text text) bw bh s' →
        s' ≤ (fit_text_in_box W asc desc text bw bh startSize minSize spacing).chosenSize := by
  obtain ⟨s0, h1, h2, h3, h4⟩ := fitLoop_first W asc desc spacing
    (tokenize_mixed_text text) bw bh (pyRange2Down startSize (minSize - 1))
    (pyRange2Down_sorted _ _) s hs hfit
  have hr : fit_text_in_box W asc desc text bw bh startSize minSize spacing =
      ⟨s0, wrap_tokens_to_width (W s0) (tokenize_mixed_text text) bw, false⟩ := by
    simp only [fit_text_in_box, h1]
  rw [hr]
  exact ⟨rfl, h2, h3, rfl, h4⟩

/-- Witness for the amended C1: with the concrete metrics of the
counterexample, size 5 is a fitting candidate, and the search indeed
returns the largest fitting candidate. -/
theorem fit_first_fitting_candidate_witness :
    ((5 : Int) ∈ pyRange2Down 7 (5 - 1)) ∧
    heightFits (fun sz s => s.length * sz.toNat) (fun s => s.toNat) (fun _ => 0) 0
      (tokenize_mixed_text ['a', 'a', 'a', 'a']) 100 6 5 ∧
    ((fit_text_in_box (fun sz s => s.length * sz.toNat) (fun s => s.toNat)
        (fun _ => 0) ['a', 'a', 'a', 'a'] 100 6 7 5 0).truncated = false ∧
      (fit_text_in_box (fun sz s => s.length * sz.toNat) (fun s => s.toNat)
        (fun _ => 0) ['a', 'a', 'a', 'a'] 100 6 7 5 0).chosenSize ∈
        pyRange2Down 7 (5 - 1) ∧
      heightFits (fun sz s => s.length * sz.toNat) (fun s => s.toNat) (fun _ => 0) 0
        (tokenize_mixed_text ['a', 'a', 'a', 'a']) 100 6
        (fit_text_in_box (fun sz s => s.length * sz.toNat) (fun s => s.toNat)
          (fun _ => 0) ['a', 'a', 'a', 'a'] 100 6 7 5 0).chosenSize ∧
      (fit_text_in_box (fun sz s => s.length * sz.toNat) (fun s => s.toNat)
        (fun _ => 0) ['a', 'a', 'a', 'a'] 100 6 7 5 0).lines =
        wrap_tokens_to_width
          ((fun sz s => s.length * sz.toNat)
            (fit_text_in_box (fun sz s => s.length * sz.toNat) (fun s => s.toNat)
              (fun _ => 0) ['a', 'a', 'a', 'a'] 100 6 7 5 0).chosenSize)
          (tokenize_mixed_text ['a', 'a', 'a', 'a']) 100 ∧
      ∀ s' ∈ pyRange2Down 7 (5 - 1),
        heightFits (fun sz s => s.length * sz.toNat) (fun s => s.toNat) (fun _ => 0) 0
          (tokenize_mixed_text ['a', 'a', 'a', 'a']) 100 6 s' →
          s' ≤ (fit_text_in_box (fun sz s => s.length * sz.toNat) (fun s => s.toNat)
            (fun _ => 0) ['a', 'a', 'a', 'a'] 100 6 7 5 0).chosenSize) :=
  ⟨by decide, by decide,
    fit_first_fitting_candidate (fun sz s => s.length * sz.toNat) (fun s => s.toNat)
      (fun _ => 0) ['a', 'a', 'a', 'a'] 100 6 7 5 0 5 (by decide) (by decide)⟩

/-! The fallback truncation path (claim C2). -/

theorem trimEllipsisRev_spec (w : Str → Nat) (bw : Int) (r : Str) :
    (∃ u, u ++ trimEllipsisRev w bw r = r) ∧
    ((w ((trimEllipsisRev w bw r).reverse ++ ell) : Int) ≤ bw ∨
      trimEllipsisRev w bw r = []) ∧
    (∀ p, (∃ a, a ++ trimEllipsisRev w bw r = p) → (∃ b, b ++ p = r) →
      p ≠ trimEllipsisRev w bw r → bw < (w (p.reverse ++ ell) : Int)) := by
  induction r with
  | nil =>
    refine ⟨⟨[], rfl⟩, Or.inr rfl, ?_⟩
    rintro p ⟨a, ha⟩ ⟨b, hb⟩ hne
    exfalso
    apply hne
    have hp : p = [] := by
      rcases List.append_eq_nil.mp hb with ⟨_, h2⟩
      exact h2
    rw [hp]
    rfl
  | cons c rest ih =>
    by_cases hcond : (w ((c :: rest).reverse ++ ell) : Int) ≤ bw
    · have hres : trimEllipsisRev w bw (c :: rest) = c :: rest := by
        rw [trimEllipsisRev, if_pos hcond]
      rw [hres]
      refine ⟨⟨[], rfl⟩, Or.inl hcond, ?_⟩
      rintro p ⟨a, ha⟩ ⟨b, hb⟩ hne
      exfalso
      apply hne
      have l1 : p.length = a.length + (c :: rest).length := by
        rw [← ha]; simp
      have l2 : (c :: rest).length = b.length + p.length := by
        rw [← hb]; simp
      have hab : a = [] := by
        cases a with
        | nil => rfl
        | cons a0 as => simp only [List.length_cons] at l1 l2; omega
      subst hab
      exact ha.symm
    · have hres : trimEllipsisRev w bw (c :: rest) = trimEllipsisRev w bw rest := by
        rw [trimEllipsisRev, if_neg hcond]
      rw [hres]
      obtain ⟨⟨u, hu⟩, h2, h3⟩ := ih
      refine ⟨⟨c :: u, by rw [List.cons_append, hu]⟩, h2, ?_⟩
      rintro p ⟨a, ha⟩ ⟨b, hb⟩ hne
      cases b with
      | nil =>
        have hp : p = c :: rest := by simpa using hb
        rw [hp]
        exact not_le.mp hcond
      | cons b0 bs =>
        rw [List.cons_append] at hb
        injection hb with hb1 hb2
        exact h3 p ⟨a, ha⟩ ⟨bs, hb2⟩ hne

theorem trimEllipsis_spec (w : Str → Nat) (bw : Int) (last : Str) :
    (∃ u, trimEllipsis w bw last ++ u = last) ∧
    ((w (trimEllipsis w bw last ++ ell) : Int) ≤ bw ∨ trimEllipsis w bw last = []) ∧
    (∀ q, (∃ a, trimEllipsis w bw last ++ a = q) → (∃ b, q ++ b = last) →
      q ≠ trimEllipsis w bw last → bw < (w (q ++ ell) : Int)) := by
  obtain ⟨⟨u, hu⟩, h2, h3⟩ := trimEllipsisRev_spec w bw last.reverse
  unfold trimEllipsis
  refine ⟨⟨u.reverse, ?_⟩, ?_, ?_⟩
  · rw [← List.reverse_append, hu, List.reverse_reverse]
  · rcases h2 with h2 | h2
    · exact Or.inl h2
    · right; rw [h2]; rfl
  · rintro q ⟨a, ha⟩ ⟨b, hb⟩ hne
    have hp1 : ∃ a', a' ++ trimEllipsisRev w bw last.reverse = q.reverse :=
      ⟨a.reverse, by rw [← ha]; simp⟩
    have hp2 : ∃ b', b' ++ q.reverse = last.reverse :=
      ⟨b.reverse, by rw [← hb]; simp⟩
    have hpne : q.reverse ≠ trimEllipsisRev w bw last.reverse := by
      intro h
      apply hne
      rw [← h, List.reverse_reverse]
    have hfin := h3 q.reverse hp1 hp2 hpne
    simpa using hfin

theorem fitLoop_none (W : Int → Str → Nat) (asc desc : Int → Nat) (spacing : Int)
    (tokens : List Str) (bw bh : Int) :
    ∀ cs : List Int, (∀ s ∈ cs, ¬heightFits W asc desc spacing tokens bw bh s) →
      fitLoop W asc desc spacing tokens bw bh cs = none := by
  intro cs
  induction cs with
  | nil => intro _; rfl
  | cons c rest ih =>
    intro h
    simp only [fitLoop]
    rw [if_neg (h c (List.mem_cons_self _ _))]
    exact ih (fun s hs => h s (List.mem_cons_of_mem _ hs))

/-- C2: when no candidate size satisfies the height budget,
`fit_text_in_box` falls back to `min_size`: it wraps at `min_size`, keeps
only the first `max(1, box_h // line_h)` lines, reports truncation exactly
when lines were removed, and in that case rewrites the last kept line to
`trimmed + "…"` where `trimmed` is the maximal cut of the last line
obtained by stripping final characters until `measure(trimmed + "…") ≤
box_w` or the line is exhausted (storing just `"…"` if nothing fits); if
no lines were removed, no ellipsis is appended. -/
theorem fit_fallback_truncation (W : Int → Str → Nat) (asc desc : Int → Nat)
    (text : Str) (bw bh startSize minSize spacing : Int)
    (hnone : ∀ s ∈ pyRange2Down startSize (minSize - 1),
      ¬heightFits W asc desc spacing (tokenize_mixed_text text) bw bh s)
    (_hlh : 0 < lineHeight asc desc spacing minSize) :
    (fit_text_in_box W asc desc text bw bh startSize minSize spacing).chosenSize =
      minSize ∧
    ((fit_text_in_box W asc desc text bw bh startSize minSize spacing).truncated = true ↔
      max 1 (Int.fdiv bh (lineHeight asc desc spacing minSize)) <
        ((wrap_tokens_to_width (W minSize) (tokenize_mixed_text text) bw).length : Int)) ∧
    (¬max 1 (Int.fdiv bh (lineHeight asc desc spacing minSize)) <
        ((wrap_tokens_to_width (W minSize) (tokenize_mixed_text text) bw).length : Int) →
      (fit_text_in_box W asc desc text bw bh startSize minSize spacing).lines =
        wrap_tokens_to_width (W minSize) (tokenize_mixed_text text) bw) ∧
    (max 1 (Int.fdiv bh (lineHeight asc desc spacing minSize)) <
        ((wrap_tokens_to_width (W minSize) (tokenize_mixed_text text) bw).length : Int) →
      ∃ last t u,
        ((wrap_tokens_to_width (W minSize) (tokenize_mixed_text text) bw).take
          (max 1 (Int.fdiv bh (lineHeight asc desc spacing minSize))).toNat).getLast? =
          some last ∧
        t ++ u = last ∧
        (fit_text_in_box W asc desc text bw bh startSize minSize spacing).lines =
          ((wrap_tokens_to_width (W minSize) (tokenize_mixed_text text) bw).take
            (max 1 (Int.fdiv bh (lineHeight asc desc spacing minSize))).toNat).dropLast ++
          [if t ≠ [] then t ++ ell else ell] ∧
        ((W minSize (t ++ ell) : Int) ≤ bw ∨ t = []) ∧
        (∀ q, (∃ a, t ++ a = q) → (∃ b, q ++ b = last) → q ≠ t →
          bw < (W minSize (q ++ ell) : Int))) := by
  have hloop := fitLoop_none W asc desc spacing (tokenize_mixed_text text) bw bh
    (pyRange2Down startSize (minSize - 1)) hnone
  simp only [fit_text_in_box, hloop]
  by_cases htr : max 1 (Int.fdiv bh (lineHeight asc desc spacing minSize)) <
      ((wrap_tokens_to_width (W minSize) (tokenize_mixed_text text) bw).length : Int)
  · rw [if_pos htr]
    have hmax1 : (1 : Int) ≤ max 1 (Int.fdiv bh (lineHeight asc desc spacing minSize)) :=
      le_max_left _ _
    have hLne : wrap_tokens_to_width (W minSize) (tokenize_mixed_text text) bw ≠ [] := by
      intro h0
      rw [h0] at htr
      simp only [List.length_nil, Nat.cast_zero] at htr
      omega
    have hkept : (wrap_tokens_to_width (W minSize) (tokenize_mixed_text text) bw).take
        (max 1 (Int.fdiv bh (lineHeight asc desc spacing minSize))).toNat ≠ [] :=
      take_ne_nil_of_pos _ _ (by omega) hLne
    obtain ⟨last, hlast⟩ : ∃ last,
        ((wrap_tokens_to_width (W minSize) (tokenize_mixed_text text) bw).take
          (max 1 (Int.fdiv bh (lineHeight asc desc spacing minSize))).toNat).getLast? =
        some last := by
      cases hgl : ((wrap_tokens_to_width (W minSize) (tokenize_mixed_text text) bw).take
          (max 1 (Int.fdiv bh (lineHeight asc desc spacing minSize))).toNat).getLast? with
      | none => exact absurd (List.getLast?_eq_none_iff.mp hgl) hkept
      | some x => exact ⟨x, rfl⟩
    rw [hlast]
    refine ⟨rfl, ⟨fun _ => htr, fun _ => rfl⟩, fun hc => absurd htr hc, fun _ => ?_⟩
    obtain ⟨⟨u, hu⟩, h2, h3⟩ := trimEllipsis_spec (W minSize) bw last
    exact ⟨last, trimEllipsis (W minSize) bw last, u, rfl, hu, rfl, h2, h3⟩
  · rw [if_neg htr]
    refine ⟨rfl, ⟨fun h => by simp at h, fun h => absurd h htr⟩, fun _ => ?_,
      fun hc => absurd hc htr⟩
    dsimp only
    rw [List.take_of_length_le (by omega)]

/-- Witness for C2: text `"ab cd ef"` in a 5 by 3 box at sizes 2..2 with
width proportional to size; no candidate fits, one line is kept and the
last kept line `"ab"` is trimmed to `"a…"`. -/
theorem fit_fallback_truncation_witness :
    (∀ s ∈ pyRange2Down 2 (2 - 1),
      ¬heightFits (fun sz s => s.length * sz.toNat) (fun s => s.toNat) (fun _ => 0) 0
        (tokenize_mixed_text ['a', 'b', ' ', 'c', 'd', ' ', 'e', 'f']) 5 3 s) ∧
    ((0 : Int) < lineHeight (fun s => s.toNat) (fun _ => 0) 0 2) ∧
    ((fit_text_in_box (fun sz s => s.length * sz.toNat) (fun s => s.toNat) (fun _ => 0)
        ['a', 'b', ' ', 'c', 'd', ' ', 'e', 'f'] 5 3 2 2 0).chosenSize = 2 ∧
      ((fit_text_in_box (fun sz s => s.length * sz.toNat) (fun s => s.toNat) (fun _ => 0)
        ['a', 'b', ' ', 'c', 'd', ' ', 'e', 'f'] 5 3 2 2 0).truncated = true ↔
        max 1 (Int.fdiv 3 (lineHeight (fun s => s.toNat) (fun _ => 0) 0 2)) <
          ((wrap_tokens_to_width ((fun (sz : Int) (s : Str) => s.length * sz.toNat) 2)
            (tokenize_mixed_text ['a', 'b', ' ', 'c', 'd', ' ', 'e', 'f']) 5).length : Int)) ∧
      (¬max 1 (Int.fdiv 3 (lineHeight (fun s => s.toNat) (fun _ => 0) 0 2)) <
          ((wrap_tokens_to_width ((fun (sz : Int) (s : Str) => s.length * sz.toNat) 2)
            (tokenize_mixed_text ['a', 'b', ' ', 'c', 'd', ' ', 'e', 'f']) 5).length : Int) →
        (fit_text_in_box (fun sz s => s.length * sz.toNat) (fun s => s.toNat) (fun _ => 0)
          ['a', 'b', ' ', 'c', 'd', ' ', 'e', 'f'] 5 3 2 2 0).lines =
          wrap_tokens_to_width ((fun (sz : Int) (s : Str) => s.length * sz.toNat) 2)
            (tokenize_mixed_text ['a', 'b', ' ', 'c', 'd', ' ', 'e', 'f']) 5) ∧
      (max 1 (Int.fdiv 3 (lineHeight (fun s => s.toNat) (fun _ => 0) 0 2)) <
          ((wrap_tokens_to_width ((fun (sz : Int) (s : Str) => s.length * sz.toNat) 2)
            (tokenize_mixed_text ['a', 'b', ' ', 'c', 'd', ' ', 'e', 'f']) 5).length : Int) →
        ∃ last t u,
          ((wrap_tokens_to_width ((fun (sz : Int) (s : Str) => s.length * sz.toNat) 2)
            (tokenize_mixed_text ['a', 'b', ' ', 'c', 'd', ' ', 'e', 'f']) 5).take
            (max 1 (Int.fdiv 3 (lineHeight (fun s => s.toNat) (fun _ => 0) 0 2))).toNat).getLast? =
            some last ∧
          t ++ u = last ∧
          (fit_text_in_box (fun sz s => s.length * sz.toNat) (fun s => s.toNat) (fun _ => 0)
            ['a', 'b', ' ', 'c', 'd', ' ', 'e', 'f'] 5 3 2 2 0).lines =
            ((wrap_tokens_to_width ((fun (sz : Int) (s : Str) => s.length * sz.toNat) 2)
              (tokenize_mixed_text ['a', 'b', ' ', 'c', 'd', ' ', 'e', 'f']) 5).take
              (max 1 (Int.fdiv 3 (lineHeight (fun s => s.toNat) (fun _ => 0) 0 2))).toNat).dropLast ++
            [if t ≠ [] then t ++ ell else ell] ∧
          (((fun (sz : Int) (s : Str) => s.length * sz.toNat) 2 (t ++ ell) : Int) ≤ 5 ∨
            t = []) ∧
          (∀ q, (∃ a, t ++ a = q) → (∃ b, q ++ b = last) → q ≠ t →
            (5 : Int) < ((fun (sz : Int) (s : Str) => s.length * sz.toNat) 2 (q ++ ell) : Int)))) :=
  ⟨by decide, by decide,
    fit_fallback_truncation (fun sz s => s.length * sz.toNat) (fun s => s.toNat)
      (fun _ => 0) ['a', 'b', ' ', 'c', 'd', ' ', 'e', 'f'] 5 3 2 2 0
      (by decide) (by decide)⟩

/-! Boundedness of the wrapper and of the fit loop (claim C8). -/

theorem hardBreak_fold_len (w : Str → Nat) (maxW : Int) :
    ∀ (chars : Str) (st : List Str × Str),
      ((chars.foldl (hardBreakStep w maxW) st).1).length ≤
        st.1.length + chars.length := by
  intro chars
  induction chars with
  | nil => intro st; simp
  | cons c rest ih =>
    intro st
    simp only [List.foldl_cons, List.length_cons]
    have hstep : ((hardBreakStep w maxW st c).1).length ≤ st.1.length + 1 := by
      simp only [hardBreakStep]
      split_ifs <;> (try dsimp only) <;>
        first
        | (simp only [List.length_append, List.length_cons, List.length_nil]; omega)
        | omega
    have := ih (hardBreakStep w maxW st c)
    omega

theorem wrapStep_len (w : Str → Nat) (maxW : Int) (st : List Str × Str) (tok : Str) :
    ((wrapStep w maxW st tok).1).length ≤ st.1.length + 1 + tok.length := by
  simp only [wrapStep, wrap_cand_eq]
  split_ifs <;> (try dsimp only) <;>
    first
    | (have hb := hardBreak_fold_len w maxW tok
        ((st.1 ++ [pyRstrip st.2] : List Str), ([] : Str))
       (try dsimp only at hb)
       (try simp only [List.length_append, List.length_cons, List.length_nil] at hb ⊢)
       omega)
    | (have hb := hardBreak_fold_len w maxW tok ((st.1 : List Str), ([] : Str))
       (try dsimp only at hb)
       omega)
    | (simp only [List.length_append, List.length_cons, List.length_nil]; omega)
    | omega

theorem wrap_fold_len (w : Str → Nat) (maxW : Int) :
    ∀ (toks : List Str) (st : List Str × Str),
      ((toks.foldl (wrapStep w maxW) st).1).length ≤
        st.1.length + toks.length + (toks.map List.length).sum := by
  intro toks
  induction toks with
  | nil => intro st; simp
  | cons t ts ih =>
    intro st
    simp only [List.foldl_cons, List.length_cons, List.map_cons, List.sum_cons]
    have h1 := wrapStep_len w maxW st t
    have h2 := ih (wrapStep w maxW st t)
    omega

/-- C8: all the loops of the engine are bounded: the ellipsis-trimming
loop returns after finitely many strips - its result is always an initial
segment of the line satisfying the loop's exit condition; the size loop
runs at most `(start_size - min_size) / 2 + 1` iterations; and one wrap
pass emits at most one line per token plus one per codepoint (the
hard-break worst case) plus the final flush, for any `max_width`,
including non-positive values. -/
theorem wrap_and_fit_bounded (w : Str → Nat) (tokens : List Str) (maxW : Int)
    (bw startSize minSize : Int) (last : Str) :
    ((∃ u, trimEllipsis w bw last ++ u = last) ∧
      ((w (trimEllipsis w bw last ++ ell) : Int) ≤ bw ∨ trimEllipsis w bw last = [])) ∧
    (pyRange2Down startSize (minSize - 1)).length ≤
      (startSize - minSize).toNat / 2 + 1 ∧
    (wrap_tokens_to_width w tokens maxW).length ≤
      tokens.length + (tokens.map List.length).sum + 1 := by
  refine ⟨⟨(trimEllipsis_spec w bw last).1, (trimEllipsis_spec w bw last).2.1⟩, ?_, ?_⟩
  · simp only [pyRange2Down, List.length_map, List.length_range]
    omega
  · have hfold := wrap_fold_len w maxW tokens ([], [])
    simp only [List.length_nil] at hfold
    simp only [wrap_tokens_to_width]
    have hls : (if pyStrip (tokens.foldl (wrapStep w maxW) ([], [])).2 ≠ [] then
        (tokens.foldl (wrapStep w maxW) ([], [])).1 ++
          [pyRstrip (tokens.foldl (wrapStep w maxW) ([], [])).2]
      else (tokens.foldl (wrapStep w maxW) ([], [])).1).length ≤
        ((tokens.foldl (wrapStep w maxW) ([], [])).1).length + 1 := by
      split_ifs <;> simp
    have hfil := List.length_filter_le (fun l => decide (pyStrip l ≠ []))
      (if pyStrip (tokens.foldl (wrapStep w maxW) ([], [])).2 ≠ [] then
        (tokens.foldl (wrapStep w maxW) ([], [])).1 ++
          [pyRstrip (tokens.foldl (wrapStep w maxW) ([], [])).2]
      else (tokens.foldl (wrapStep w maxW) ([], [])).1)
    omega

/-! The layout placer (claim C9). -/

/-- C9 counterexample: `draw_lines` has no `vertical_centering` boolean;
for a one-line box where the text fits with room to spare the first line
is placed at the centered ordinate 4, never at the box top 0, so the
claimed top-aligned mode (for `vertical_centering = false`) does not
exist. -/
theorem draw_lines_centering_counterexample :
    draw_lines (fun s => s.length) 0 0 100 10 [['a', 'b']] 1 1 "left" 0 =
      [(['a', 'b'], 0, 4)] ∧ (4 : Int) ≠ 0 := by
  constructor
  · rfl
  · decide

/-- C9 amended: `draw_lines` hardcodes vertical centering - there is no
selecting boolean: whenever there is at least one line, the total text
height is below the box height and one line height fits the box, the
vertical start is `y + (box_h - total_h) // 2`, and otherwise it is the
box top `y`; the first line with content is placed at that ordinate
(provided it fits the box bottom). -/
theorem draw_lines_vertical_start (w : Str → Nat) (x y bw bh : Int) (l : Str)
    (rest : List Str) (ascent descent : Nat) (align : String) (spacing : Int)
    (hl : pyStrip l ≠ [])
    (hfit : (if ((l :: rest).length : Int) * ((ascent : Int) + descent + spacing) < bh ∧
          (ascent : Int) + descent + spacing ≤ bh then
        y + Int.fdiv (bh - ((l :: rest).length : Int) *
          ((ascent : Int) + descent + spacing)) 2
      else y) + ((ascent : Int) + descent + spacing) ≤ y + bh) :
    ∃ xx, (draw_lines w x y bw bh (l :: rest) ascent descent align spacing).head? =
      some (l, xx,
        if ((l :: rest).length : Int) * ((ascent : Int) + descent + spacing) < bh ∧
            (ascent : Int) + descent + spacing ≤ bh then
          y + Int.fdiv (bh - ((l :: rest).length : Int) *
            ((ascent : Int) + descent + spacing)) 2
        else y) := by
  have hy0 : y ≤ (if ((l :: rest).length : Int) * ((ascent : Int) + descent + spacing) < bh ∧
        (ascent : Int) + descent + spacing ≤ bh then
      y + Int.fdiv (bh - ((l :: rest).length : Int) *
        ((ascent : Int) + descent + spacing)) 2
    else y) := by
    split_ifs with hc
    · have h1 : 0 ≤ bh - ((l :: rest).length : Int) *
          ((ascent : Int) + descent + spacing) := by omega
      have h2 := Int.fdiv_nonneg h1 (by norm_num : (0 : Int) ≤ 2)
      omega
    · exact le_refl _
  simp only [draw_lines]
  have hcond : (0 < (l :: rest).length ∧
      ((l :: rest).length : Int) * ((ascent : Int) + descent + spacing) < bh ∧
      (ascent : Int) + descent + spacing ≤ bh) ↔
      (((l :: rest).length : Int) * ((ascent : Int) + descent + spacing) < bh ∧
      (ascent : Int) + descent + spacing ≤ bh) := by
    simp
  rw [if_congr hcond rfl rfl]
  rw [drawLoop, if_neg (by exact hl)]
  rw [if_neg (by omega : ¬(if ((l :: rest).length : Int) *
      ((ascent : Int) + descent + spacing) < bh ∧
      (ascent : Int) + descent + spacing ≤ bh then
        y + Int.fdiv (bh - ((l :: rest).length : Int) *
          ((ascent : Int) + descent + spacing)) 2
      else y) < y)]
  rw [if_neg (not_lt.mpr hfit)]
  exact ⟨_, rfl⟩

/-- Witness for the amended C9 at the counterexample geometry. -/
theorem draw_lines_vertical_start_witness :
    pyStrip ['a', 'b'] ≠ [] ∧
    ((if (([['a', 'b']].head! :: []).length : Int) * ((1 : Nat) + (1 : Nat) + 0) < 10 ∧
        ((1 : Nat) : Int) + (1 : Nat) + 0 ≤ 10 then
      0 + Int.fdiv (10 - ((([['a', 'b']].head! :: []).length : Int)) *
        (((1 : Nat) : Int) + (1 : Nat) + 0)) 2 else 0) +
      (((1 : Nat) : Int) + (1 : Nat) + 0) ≤ 0 + 10) ∧
    ∃ xx, (draw_lines (fun s => s.length) 0 0 100 10 (['a', 'b'] :: [])
        1 1 "left" 0).head? =
      some (['a', 'b'], xx,
        if ((['a', 'b'] :: []).length : Int) * (((1 : Nat) : Int) + (1 : Nat) + 0) < 10 ∧
            ((1 : Nat) : Int) + (1 : Nat) + 0 ≤ 10 then
          0 + Int.fdiv (10 - ((['a', 'b'] :: []).length : Int) *
            (((1 : Nat) : Int) + (1 : Nat) + 0)) 2
        else 0) :=
  ⟨by decide, by decide,
    draw_lines_vertical_start (fun s => s.length) 0 0 100 10 ['a', 'b'] [] 1 1
      "left" 0 (by decide) (by decide)⟩
